import Mathlib

/-!
# Shortest path demo (`src/C/ShortestPath/Shortest path.c`)

A shallow embedding of `getIndex` and `ShortestPath` and the properties of the
printed result.

Modelling conventions.
* `strArr` is split into its two parts: the node names `strArr[1..N]` and the edge
  tokens `strArr[N+1..arrLength-1]`; `N = atoi(strArr[0])` is the number of names.
* The C arrays `dist`, `visited`, `prev` and `graph` are total maps from indices;
  the code only reads and writes indices below `N`.
* `int` values are integers; the one addition of the program is wrapped to
  32 bits (`wrap32`).
* Names and tokens are C strings: `strcmp(a, b) == 0` is equality of strings.
* A run whose behaviour is undefined in C (an edge token without two names,
  a write past `path[N-1]`, `N = 0`) yields `none`.
-/

namespace ShortestPathC

/-- The constant `INT_MAX` of `limits.h` for a 32-bit `int`. -/
def INT_MAX : Int := 2147483647

/-- Two's-complement wrap-around of an integer to the range of a 32-bit `int`. -/
def wrap32 (x : Int) : Int := (x + 2147483648) % 4294967296 - 2147483648

/-- Array write `f[i] = x`. -/
def upd {α : Type} (f : Nat → α) (i : Nat) (x : α) : Nat → α :=
  fun j => if j = i then x else f j

/-- The loop of `getIndex`, at position `i` of the node array. -/
def getIndexFrom (name : String) : List String → Nat → Int
  | [], _ => -1
  | n :: rest, i => if name = n then (i : Int) else getIndexFrom name rest (i + 1)

/-- `getIndex(name, nodes, N)`: index of the first node called `name`, `-1` if none. -/
def getIndex (name : String) (nodes : List String) : Int :=
  getIndexFrom name nodes 0

/-- One call of `strtok(.., "-")` on the characters still to be read: leading
delimiters are skipped, the token runs up to the next delimiter, which is consumed.
`none` stands for the `NULL` result. -/
def strtok (s : List Char) : Option (List Char × List Char) :=
  match s.dropWhile (fun c => c = '-') with
  | [] => none
  | c :: cs =>
    some ((c :: cs).takeWhile (fun c => c ≠ '-'), ((c :: cs).dropWhile (fun c => c ≠ '-')).drop 1)

/-- The two `strtok` calls on an edge token: `src` and `dest`. `none` when one of
them is `NULL` (`getIndex` would then hand `NULL` to `strcmp`). -/
def parseEdge (edge : String) : Option (String × String) :=
  match strtok edge.toList with
  | none => none
  | some (src, rest) =>
    match strtok rest with
    | none => none
    | some (dest, _) => some (String.mk src, String.mk dest)

/-- The adjacency matrix after its initialisation: every entry `INT_MAX`. -/
def initGraph : Nat → Nat → Int := fun _ _ => INT_MAX

/-- Body of the edge-parsing loop for one token. -/
def addEdge (nodes : List String) (graph : Nat → Nat → Int) (edge : String) :
    Option (Nat → Nat → Int) :=
  match parseEdge edge with
  | none => none
  | some (src, dest) =>
    let u := getIndex src nodes
    let v := getIndex dest nodes
    if u ≠ -1 ∧ v ≠ -1 then some (upd graph u.toNat (upd (graph u.toNat) v.toNat 1))
    else some graph

/-- The edge-parsing loop over all tokens, from the initialised matrix. -/
def buildGraph (nodes : List String) (edges : List String) : Option (Nat → Nat → Int) :=
  edges.foldlM (addEdge nodes) initGraph

/-- The three working arrays of the main loop. -/
structure State where
  dist : Nat → Int
  visited : Nat → Bool
  prev : Nat → Int

/-- The arrays after initialisation, with `dist[0] = 0`. -/
def initState : State :=
  { dist := upd (fun _ => INT_MAX) 0 0, visited := fun _ => false, prev := fun _ => -1 }

/-- Body of the selection loop: `(minDist, minIndex)` after looking at `v`. -/
def selectStep (s : State) (m : Int × Int) (v : Nat) : Int × Int :=
  if s.visited v = false ∧ s.dist v ≤ m.1 then (s.dist v, (v : Int)) else m

/-- The selection loop: `(minDist, minIndex)` after `v = 0 .. N-1`. -/
def selectMin (N : Nat) (s : State) : Int × Int :=
  (List.range N).foldl (selectStep s) (INT_MAX, -1)

/-- Body of the relaxation loop for one `v`. -/
def relaxStep (graph : Nat → Nat → Int) (minIndex : Nat) (s : State) (v : Nat) : State :=
  if s.visited v = false ∧ graph minIndex v ≠ INT_MAX ∧
      wrap32 (s.dist minIndex + graph minIndex v) < s.dist v then
    { s with dist := upd s.dist v (wrap32 (s.dist minIndex + graph minIndex v)),
             prev := upd s.prev v (minIndex : Int) }
  else s

/-- The relaxation loop over `v = 0 .. N-1`. -/
def relax (N : Nat) (graph : Nat → Nat → Int) (minIndex : Nat) (s : State) : State :=
  (List.range N).foldl (relaxStep graph minIndex) s

/-- One iteration of the main loop; `none` when it leaves through `break`. -/
def iteration (N : Nat) (graph : Nat → Nat → Int) (s : State) : Option State :=
  let minIndex := (selectMin N s).2
  if minIndex = -1 then none
  else some (relax N graph minIndex.toNat
    { s with visited := upd s.visited minIndex.toNat true })

/-- The main loop with `count` iterations still to run. -/
def mainLoop (N : Nat) (graph : Nat → Nat → Int) : Nat → State → State
  | 0, s => s
  | count + 1, s =>
    match iteration N graph s with
    | none => s
    | some s' => mainLoop N graph count s'

/-- The arrays when the main loop is left: `N - 1` iterations from the initial state. -/
def dijkstra (N : Nat) (graph : Nat → Nat → Int) : State :=
  mainLoop N graph (N - 1) initState

/-- The reconstruction loop `while (at != -1)`, storing `at` in `path[len++]`;
`room` is the number of free cells left in `path`, and a write with no room
left gives `none`. The result lists `path[0 .. len-1]`. -/
def reconstruct (prev : Nat → Int) : Nat → Int → Option (List Int)
  | room, a =>
    if a = -1 then some []
    else
      match room with
      | 0 => none
      | room + 1 => (reconstruct prev room (prev a.toNat)).map (fun p => a :: p)

/-- What `ShortestPath` prints: the names of a path from source to sink, joined
by `-` in the program's output, or the message that no path was found from the
first to the last node. -/
inductive Output where
  | path (names : List String)
  | noPath (source sink : String)
  deriving DecidableEq

/-- The function `ShortestPath` on node names `nodes` and edge tokens `edges`. -/
def ShortestPath (nodes : List String) (edges : List String) : Option Output :=
  let N := nodes.length
  if N = 0 then none
  else
    match buildGraph nodes edges with
    | none => none
    | some graph =>
      let s := dijkstra N graph
      match reconstruct s.prev N ((N : Int) - 1) with
      | none => none
      | some path =>
        if s.dist (N - 1) = INT_MAX then
          some (Output.noPath (nodes.getD 0 "") (nodes.getD (N - 1) ""))
        else some (Output.path (path.reverse.map (fun i => nodes.getD i.toNat "")))

/-! ## Reference notions -/

/-- The edge `u → v` of the adjacency matrix, between indices below `N`. -/
def Adj (N : Nat) (graph : Nat → Nat → Int) (u v : Nat) : Prop :=
  u < N ∧ v < N ∧ graph u v ≠ INT_MAX

/-- `Walk E u v k`: there is a directed walk with exactly `k` edges of `E` from `u` to `v`. -/
inductive Walk (E : Nat → Nat → Prop) (u : Nat) : Nat → Nat → Prop where
  | nil : Walk E u u 0
  | snoc {v w k : Nat} : Walk E u v k → E v w → Walk E u w (k + 1)

/-- The condition under which the relaxation loop rewrites `dist[v]` and `prev[v]`. -/
def Relaxes (graph : Nat → Nat → Int) (u : Nat) (s : State) (v : Nat) : Prop :=
  s.visited v = false ∧ graph u v ≠ INT_MAX ∧ wrap32 (s.dist u + graph u v) < s.dist v

instance (graph : Nat → Nat → Int) (u : Nat) (s : State) (v : Nat) :
    Decidable (Relaxes graph u s v) := by
  unfold Relaxes; infer_instance

/-- The condition under which an iteration that selected `u` rewrites `dist[v]` and
`prev[v]`, in terms of the arrays at the start of the iteration. -/
def Rewritten (N : Nat) (graph : Nat → Nat → Int) (s : State) (u v : Nat) : Prop :=
  v < N ∧ v ≠ u ∧ s.visited v = false ∧ graph u v ≠ INT_MAX ∧ s.dist u + 1 < s.dist v

instance (N : Nat) (graph : Nat → Nat → Int) (s : State) (u v : Nat) :
    Decidable (Rewritten N graph s u v) := by
  unfold Rewritten; infer_instance

/-- Invariant of the main loop after `k` iterations each of which selected a node of
finite distance. -/
structure Inv (N : Nat) (graph : Nat → Nat → Int) (k : Nat) (s : State) : Prop where
  src : s.dist 0 = 0
  srcPrev : s.prev 0 = -1
  fin : ∀ v, s.dist v = INT_MAX ∨
    (0 ≤ s.dist v ∧ s.dist v ≤ (k : Int) ∧ Walk (Adj N graph) 0 v (s.dist v).toNat)
  vis : ∀ u, s.visited u = true → u < N ∧ 0 ≤ s.dist u ∧ s.dist u + 1 ≤ (k : Int)
  closed : ∀ u v, s.visited u = true → Adj N graph u v → s.dist v ≤ s.dist u + 1
  mono : ∀ u v, s.visited u = true → v < N → s.visited v = false → s.dist u ≤ s.dist v
  count : ((Finset.range N).filter (fun v => s.visited v = true)).card = k
  prevInf : ∀ v, s.dist v = INT_MAX → s.prev v = -1
  prevFin : ∀ v, v ≠ 0 → s.dist v ≠ INT_MAX →
    ∃ u : Nat, s.prev v = (u : Int) ∧ s.visited u = true ∧ Adj N graph u v ∧
      s.dist v = s.dist u + 1

/-- What the arrays satisfy when the main loop is left, for a set `C` of settled
nodes: inside `C` the predecessor links step down the distances to the source,
and the sink is either in `C` with its true distance or unreachable with
`dist = INT_MAX` and no predecessor. -/
structure Final (N : Nat) (graph : Nat → Nat → Int) (C : Nat → Prop) (s : State) : Prop where
  src : C 0 → s.dist 0 = 0 ∧ s.prev 0 = -1
  bound : ∀ v, C v → v < N ∧ 0 ≤ s.dist v ∧ s.dist v < (N : Int)
  chain : ∀ v, C v → v ≠ 0 →
    ∃ u : Nat, C u ∧ s.prev v = (u : Int) ∧ Adj N graph u v ∧ s.dist v = s.dist u + 1
  sinkIn : C (N - 1) → Walk (Adj N graph) 0 (N - 1) (s.dist (N - 1)).toNat ∧
    ∀ k, Walk (Adj N graph) 0 (N - 1) k → s.dist (N - 1) ≤ (k : Int)
  sinkOut : ¬ C (N - 1) → s.dist (N - 1) = INT_MAX ∧ s.prev (N - 1) = -1 ∧
    ∀ k, ¬ Walk (Adj N graph) 0 (N - 1) k

/-- The state of the main loop once every settled node and the sink are visited:
later iterations cannot touch what `Final` speaks about. -/
def Closed (N : Nat) (graph : Nat → Nat → Int) (s : State) : Prop :=
  ∃ C : Nat → Prop, Final N graph C s ∧ (∀ v, C v → s.visited v = true) ∧
    s.visited (N - 1) = true

/-- The edges the matrix records, read off the tokens: some token has two names
that `getIndex` resolves to `i` and `j`. -/
def HasEdge (nodes edges : List String) (i j : Nat) : Prop :=
  ∃ e ∈ edges, ∃ a b, parseEdge e = some (a, b) ∧
    getIndex a nodes = (i : Int) ∧ getIndex b nodes = (j : Int)

/-- Reference edge relation on node indices: some edge token names node `i` as its
source and node `j` as its destination. -/
def IsEdge (nodes edges : List String) (i j : Nat) : Prop :=
  i < nodes.length ∧ j < nodes.length ∧
    ∃ e ∈ edges, parseEdge e = some (nodes.getD i "", nodes.getD j "")

instance (nodes edges : List String) (i j : Nat) : Decidable (IsEdge nodes edges i j) := by
  unfold IsEdge; infer_instance

/-- Valid input of `ShortestPath`: at least one node, a node count that fits the `int`
it is stored in, distinct node names, and edge tokens on which both `strtok` calls
return a name. -/
structure ValidInput (nodes edges : List String) : Prop where
  nonempty : nodes ≠ []
  fits : (nodes.length : Int) ≤ INT_MAX
  distinct : nodes.Nodup
  tokens : ∀ e ∈ edges, (parseEdge e).isSome = true

/-- The value of `dist[N-1]` when the main loop of `ShortestPath` is left. -/
def sinkDist (nodes edges : List String) : Option Int :=
  (buildGraph nodes edges).map
    (fun graph => (dijkstra nodes.length graph).dist (nodes.length - 1))

/-- An edge token is kept by the edge loop's test `u != -1 && v != -1` when both of
its names are node names; a token without two names is not of that kind. -/
def knownEdge (nodes : List String) (edge : String) : Bool :=
  match parseEdge edge with
  | none => true
  | some (src, dest) => decide (src ∈ nodes ∧ dest ∈ nodes)

end ShortestPathC

/-!
# Control register simulator (`src/C/ControlRegister/Control_Register.c`)

Modelling conventions.
* A bitfield of `ControlRegister_t` holds a number; a register value is well formed
  when every field fits its width, and a store to a field keeps the low bits.
* The globals `eventBuffer` and `eventHead` are passed as an `EventLog`; a slot holds
  the characters of its message before the terminating NUL, one `Char` per `char`.
* `atoi(s)` is `(int) strtol(s, NULL, 10)` as the C library computes it with a 64-bit
  `long`: the value is saturated at the range of `long` and then reduced to 32 bits.
  The C standard leaves the result undefined when the value does not fit an `int`.
-/

namespace ControlRegisterC

/-- The bitfield struct `ControlRegister_t`. -/
structure ControlRegister_t where
  RESERVED : Nat
  MODE : Nat
  ALARM : Nat
  POWER : Nat
  deriving DecidableEq

/-- The values a `ControlRegister_t` can hold: three bits for `RESERVED` and `MODE`,
one bit for `ALARM` and `POWER`. -/
def WellFormed (reg : ControlRegister_t) : Prop :=
  reg.RESERVED < 8 ∧ reg.MODE < 8 ∧ reg.ALARM < 2 ∧ reg.POWER < 2

instance (reg : ControlRegister_t) : Decidable (WellFormed reg) := by
  unfold WellFormed; infer_instance

/-- The enum `CommandType`. -/
inductive CommandType where
  | CMD_POWER
  | CMD_ALARM
  | CMD_MODE
  | CMD_RESERVED
  | CMD_INVALID
  deriving DecidableEq

/-- The constant `EVENT_BUFFER_SIZE`. -/
def EVENT_BUFFER_SIZE : Nat := 10

/-- The globals `eventBuffer` (the message of each slot) and `eventHead`. -/
structure EventLog where
  eventBuffer : Nat → String
  eventHead : Nat

/-- The zero-initialised globals at program start: every message empty, head `0`. -/
def emptyLog : EventLog :=
  { eventBuffer := fun _ => "", eventHead := 0 }

/-- What `snprintf(dst, 64, ..)` stores: at most 63 characters of the formatted text. -/
def truncate63 (msg : String) : String :=
  String.mk (msg.toList.take 63)

/-- Store of a message in one slot of `eventBuffer`. -/
def writeSlot (buffer : Nat → String) (i : Nat) (msg : String) : Nat → String :=
  fun j => if j = i then msg else buffer j

/-- `logEvent(msg)` on the globals `log`. -/
def logEvent (log : EventLog) (msg : String) : EventLog :=
  { eventBuffer := writeSlot log.eventBuffer log.eventHead (truncate63 msg),
    eventHead := (log.eventHead + 1) % EVENT_BUFFER_SIZE }

/-- The lines `printEventLog` prints: index and message of every slot whose message
is not empty, in slot order. -/
def printEventLog (log : EventLog) : List (Nat × String) :=
  (List.range EVENT_BUFFER_SIZE).filterMap
    (fun i => if log.eventBuffer i ≠ "" then some (i, log.eventBuffer i) else none)

/-- `encodeRegister(reg)`: the shifted fields combined with `|`, returned as `uint8_t`. -/
def encodeRegister (reg : ControlRegister_t) : Nat :=
  ((reg.POWER <<< 7) ||| (reg.ALARM <<< 6) ||| (reg.MODE <<< 3) ||| reg.RESERVED) % 256

/-- The test `strcasecmp(a, b) == 0`: equality up to the case of ASCII letters. -/
def strcasecmpEq (a b : String) : Bool :=
  a.toList.map Char.toLower = b.toList.map Char.toLower

/-- The characters `isspace` accepts in the C locale. -/
def isspace (c : Char) : Bool :=
  c.toNat = 32 ∨ (9 ≤ c.toNat ∧ c.toNat ≤ 13)

/-- The value of the leading decimal digits of `cs`, continuing from `acc`. -/
def digitsValue : List Char → Nat → Nat
  | [], acc => acc
  | c :: cs, acc =>
    if c.isDigit then digitsValue cs (acc * 10 + (c.toNat - 48)) else acc

/-- Conversion of a `long` to `int`: the low 32 bits, read as a signed value. -/
def toInt32 (x : Int) : Int := (x + 2147483648) % 4294967296 - 2147483648

/-- The constant `LONG_MAX` of `limits.h` for a 64-bit `long`. -/
def LONG_MAX : Int := 9223372036854775807

/-- `strtol(s, NULL, 10)`: leading white space is skipped, an optional sign is read,
then the decimal digits; a value outside the range of `long` is replaced by
`LONG_MIN` or `LONG_MAX`. -/
def strtol (s : String) : Int :=
  let v : Int :=
    match s.toList.dropWhile isspace with
    | '-' :: rest => -((digitsValue rest 0 : Nat) : Int)
    | '+' :: rest => ((digitsValue rest 0 : Nat) : Int)
    | cs => ((digitsValue cs 0 : Nat) : Int)
  if v < -LONG_MAX - 1 then -LONG_MAX - 1
  else if LONG_MAX < v then LONG_MAX
  else v

/-- `atoi(s)`, that is `(int) strtol(s, NULL, 10)`. -/
def atoi (s : String) : Int :=
  toInt32 (strtol s)

/-- `applyCommand(reg, cmd, value)` on the globals `log`: the new register and the
new event log. -/
def applyCommand (reg : ControlRegister_t) (cmd : CommandType) (value : String)
    (log : EventLog) : ControlRegister_t × EventLog :=
  match cmd with
  | CommandType.CMD_POWER =>
    let power := if strcasecmpEq value "ON" then 1 else 0
    ({ reg with POWER := power },
      logEvent log (truncate63 ("POWER set to " ++ (if power ≠ 0 then "ON" else "OFF"))))
  | CommandType.CMD_ALARM =>
    let alarm := if strcasecmpEq value "ON" then 1 else 0
    ({ reg with ALARM := alarm },
      logEvent log (truncate63 ("ALARM set to " ++ (if alarm ≠ 0 then "ON" else "OFF"))))
  | CommandType.CMD_MODE =>
    let mode := atoi value
    if 0 ≤ mode ∧ mode ≤ 7 then
      ({ reg with MODE := mode.toNat % 8 },
        logEvent log (truncate63 ("MODE set to " ++ toString (mode.toNat % 8))))
    else
      (reg, logEvent log (truncate63 ("Invalid MODE value: " ++ toString mode)))
  | CommandType.CMD_RESERVED =>
    let rsv := atoi value
    if 0 ≤ rsv ∧ rsv ≤ 7 then
      ({ reg with RESERVED := rsv.toNat % 8 },
        logEvent log (truncate63 ("RESERVED bits set to " ++ toString (rsv.toNat % 8))))
    else
      (reg, logEvent log (truncate63 ("Invalid RESERVED value: " ++ toString rsv)))
  | CommandType.CMD_INVALID =>
    (reg, logEvent log (truncate63 "Unknown command"))

end ControlRegisterC

namespace ShortestPathC

/-! ## Basic facts -/

theorem upd_same {α : Type} (f : Nat → α) (i : Nat) (x : α) : upd f i x i = x := by
  simp [upd]

theorem upd_other {α : Type} (f : Nat → α) (i j : Nat) (x : α) (h : j ≠ i) :
    upd f i x j = f j := by
  simp [upd, h]

theorem wrap32_small (x : Int) (h0 : -2147483648 ≤ x) (h1 : x ≤ 2147483647) : wrap32 x = x := by
  unfold wrap32; omega

theorem wrap32_le (x : Int) : wrap32 x ≤ INT_MAX := by
  unfold wrap32 INT_MAX; omega

/-- The selection loop restricted to `v = 0 .. n-1`. -/
theorem selectFold_spec (s : State) (hle : ∀ v, s.dist v ≤ INT_MAX) (n : Nat) :
    (((List.range n).foldl (selectStep s) (INT_MAX, -1)).2 = -1 ∧
      ((List.range n).foldl (selectStep s) (INT_MAX, -1)).1 = INT_MAX ∧
      ∀ v, v < n → s.visited v = true) ∨
    (∃ u, u < n ∧ ((List.range n).foldl (selectStep s) (INT_MAX, -1)).2 = (u : Int) ∧
      ((List.range n).foldl (selectStep s) (INT_MAX, -1)).1 = s.dist u ∧
      s.visited u = false ∧
      (∀ v, v < n → s.visited v = false → s.dist u ≤ s.dist v) ∧
      (∀ v, v < n → u < v → s.visited v = false → s.dist u < s.dist v)) := by
  induction n with
  | zero => left; simp
  | succ n ih =>
    rw [List.range_succ, List.foldl_append]
    simp only [List.foldl_cons, List.foldl_nil]
    generalize (List.range n).foldl (selectStep s) (INT_MAX, -1) = m at ih ⊢
    unfold selectStep
    by_cases hc : s.visited n = false ∧ s.dist n ≤ m.1
    · rw [if_pos hc]
      right
      refine ⟨n, Nat.lt_succ_self n, rfl, rfl, hc.1, ?_, ?_⟩
      · intro v hv hvis
        rcases Nat.lt_succ_iff_lt_or_eq.mp hv with hlt | heq
        · rcases ih with ⟨_, _, hall⟩ | ⟨u, _, _, hm1, _, hmin, _⟩
          · rw [hall v hlt] at hvis; cases hvis
          · have := hmin v hlt hvis
            have := hc.2
            omega
        · subst heq; exact le_refl _
      · intro v hv hnv; omega
    · rw [if_neg hc]
      rcases ih with ⟨h2, h1, hall⟩ | ⟨u, hu, h2, h1, huv, hmin, htie⟩
      · left
        refine ⟨h2, h1, ?_⟩
        intro v hv
        rcases Nat.lt_succ_iff_lt_or_eq.mp hv with hlt | heq
        · exact hall v hlt
        · subst heq
          by_contra hvis
          have hf : s.visited v = false := by simpa using hvis
          have := hle v
          exact hc ⟨hf, by omega⟩
      · right
        have key : s.visited n = false → s.dist u < s.dist n := by
          intro hf
          by_contra hlt
          exact hc ⟨hf, by omega⟩
        refine ⟨u, Nat.lt_succ_of_lt hu, h2, h1, huv, ?_, ?_⟩
        · intro v hv hvis
          rcases Nat.lt_succ_iff_lt_or_eq.mp hv with hlt | heq
          · exact hmin v hlt hvis
          · subst heq; exact le_of_lt (key hvis)
        · intro v hv huv2 hvis
          rcases Nat.lt_succ_iff_lt_or_eq.mp hv with hlt | heq
          · exact htie v hlt huv2 hvis
          · subst heq; exact key hvis

/-- What the selection loop returns: `-1` when every node is visited, otherwise the
highest index among the unvisited nodes of least distance. -/
theorem selectMin_spec (N : Nat) (s : State) (hle : ∀ v, s.dist v ≤ INT_MAX) :
    ((selectMin N s).2 = -1 ∧ ∀ v, v < N → s.visited v = true) ∨
    (∃ u, u < N ∧ (selectMin N s).2 = (u : Int) ∧ s.visited u = false ∧
      (∀ v, v < N → s.visited v = false → s.dist u ≤ s.dist v) ∧
      (∀ v, v < N → u < v → s.visited v = false → s.dist u < s.dist v)) := by
  unfold selectMin
  rcases selectFold_spec s hle N with ⟨h2, _, hall⟩ | ⟨u, hu, h2, _, huv, hmin, htie⟩
  · exact Or.inl ⟨h2, hall⟩
  · exact Or.inr ⟨u, hu, h2, huv, hmin, htie⟩

/-- The relaxation loop restricted to `v = 0 .. n-1`, from a state in which
`minIndex` is already marked visited. -/
theorem relaxFold_spec (graph : Nat → Nat → Int) (u : Nat) (s : State)
    (hu : s.visited u = true) (n : Nat) :
    ((List.range n).foldl (relaxStep graph u) s).visited = s.visited ∧
    ∀ v,
      ((List.range n).foldl (relaxStep graph u) s).dist v =
        (if v < n ∧ Relaxes graph u s v then wrap32 (s.dist u + graph u v) else s.dist v) ∧
      ((List.range n).foldl (relaxStep graph u) s).prev v =
        (if v < n ∧ Relaxes graph u s v then (u : Int) else s.prev v) := by
  induction n with
  | zero => simp
  | succ n ih =>
    rw [List.range_succ, List.foldl_append]
    simp only [List.foldl_cons, List.foldl_nil]
    generalize (List.range n).foldl (relaxStep graph u) s = t at ih ⊢
    obtain ⟨hvis, hdp⟩ := ih
    have hnotu : ¬ (u < n ∧ Relaxes graph u s u) := by
      rintro ⟨_, h, _⟩
      rw [hu] at h; cases h
    have htu : t.dist u = s.dist u := by
      rw [(hdp u).1, if_neg hnotu]
    have htn : t.dist n = s.dist n := by
      rw [(hdp n).1, if_neg (by omega)]
    have hcond : (t.visited n = false ∧ graph u n ≠ INT_MAX ∧
        wrap32 (t.dist u + graph u n) < t.dist n) ↔ Relaxes graph u s n := by
      unfold Relaxes
      rw [hvis, htu, htn]
    unfold relaxStep
    by_cases hc : Relaxes graph u s n
    · rw [if_pos (hcond.mpr hc)]
      refine ⟨hvis, fun v => ?_⟩
      by_cases hvn : v = n
      · subst hvn
        simp only [upd_same, htu]
        rw [if_pos ⟨Nat.lt_succ_self v, hc⟩, if_pos ⟨Nat.lt_succ_self v, hc⟩]
        exact ⟨rfl, rfl⟩
      · simp only [upd_other _ _ _ _ hvn]
        rw [(hdp v).1, (hdp v).2]
        have hiff : (v < n + 1 ∧ Relaxes graph u s v) ↔ (v < n ∧ Relaxes graph u s v) := by
          constructor
          · rintro ⟨h1, h2⟩; exact ⟨by omega, h2⟩
          · rintro ⟨h1, h2⟩; exact ⟨by omega, h2⟩
        simp only [hiff]
        exact ⟨trivial, trivial⟩
    · rw [if_neg (fun h => hc (hcond.mp h))]
      refine ⟨hvis, fun v => ?_⟩
      rw [(hdp v).1, (hdp v).2]
      have hiff : (v < n + 1 ∧ Relaxes graph u s v) ↔ (v < n ∧ Relaxes graph u s v) := by
        constructor
        · rintro ⟨h1, h2⟩
          refine ⟨?_, h2⟩
          rcases Nat.lt_succ_iff_lt_or_eq.mp h1 with h | h
          · exact h
          · subst h; exact absurd h2 hc
        · rintro ⟨h1, h2⟩; exact ⟨by omega, h2⟩
      simp only [hiff]
      exact ⟨trivial, trivial⟩

theorem relax_visited (N : Nat) (graph : Nat → Nat → Int) (u : Nat) (s : State)
    (hu : s.visited u = true) : (relax N graph u s).visited = s.visited :=
  (relaxFold_spec graph u s hu N).1

theorem relax_dist (N : Nat) (graph : Nat → Nat → Int) (u : Nat) (s : State)
    (hu : s.visited u = true) (v : Nat) :
    (relax N graph u s).dist v =
      (if v < N ∧ Relaxes graph u s v then wrap32 (s.dist u + graph u v) else s.dist v) :=
  ((relaxFold_spec graph u s hu N).2 v).1

theorem relax_prev (N : Nat) (graph : Nat → Nat → Int) (u : Nat) (s : State)
    (hu : s.visited u = true) (v : Nat) :
    (relax N graph u s).prev v =
      (if v < N ∧ Relaxes graph u s v then (u : Int) else s.prev v) :=
  ((relaxFold_spec graph u s hu N).2 v).2

/-- The relaxation loop leaves the entries of visited nodes alone. -/
theorem relax_frame (N : Nat) (graph : Nat → Nat → Int) (u : Nat) (s : State)
    (hu : s.visited u = true) (v : Nat) (hv : s.visited v = true) :
    (relax N graph u s).dist v = s.dist v ∧ (relax N graph u s).prev v = s.prev v := by
  have hn : ¬ (v < N ∧ Relaxes graph u s v) := by
    rintro ⟨_, h, _⟩
    rw [hv] at h; cases h
  rw [relax_dist N graph u s hu, relax_prev N graph u s hu, if_neg hn, if_neg hn]
  exact ⟨rfl, rfl⟩

/-! ## The main loop -/

theorem Inv_init (N : Nat) (graph : Nat → Nat → Int) : Inv N graph 0 initState where
  src := by simp [initState, upd]
  srcPrev := rfl
  fin := by
    intro v
    by_cases hv : v = 0
    · subst hv
      right
      have h0 : initState.dist 0 = 0 := by simp [initState, upd]
      rw [h0]
      exact ⟨le_refl _, le_refl _, Walk.nil⟩
    · left; simp [initState, upd, hv]
  vis := by intro u hu; simp [initState] at hu
  closed := by intro u v hu; simp [initState] at hu
  mono := by intro u v hu; simp [initState] at hu
  count := by simp [initState]
  prevInf := by intro v _; rfl
  prevFin := by
    intro v hv hd
    exact absurd (by simp [initState, upd, hv]) hd

/-- The arrays after an iteration that selected the unvisited node `u` of finite
distance: exactly the entries singled out by `Rewritten` change. -/
theorem iteration_char (N : Nat) (graph : Nat → Nat → Int) (s : State) (u : Nat)
    (hg : ∀ a b, graph a b = 1 ∨ graph a b = INT_MAX)
    (h0 : 0 ≤ s.dist u) (h1 : s.dist u + 1 ≤ INT_MAX) (v : Nat) :
    (relax N graph u { s with visited := upd s.visited u true }).dist v =
      (if Rewritten N graph s u v then s.dist u + 1 else s.dist v) ∧
    (relax N graph u { s with visited := upd s.visited u true }).prev v =
      (if Rewritten N graph s u v then (u : Int) else s.prev v) := by
  have hu1 : ({ s with visited := upd s.visited u true } : State).visited u = true := by
    simp [upd]
  rw [relax_dist N graph u _ hu1, relax_prev N graph u _ hu1]
  have hiff : (v < N ∧ Relaxes graph u { s with visited := upd s.visited u true } v) ↔
      Rewritten N graph s u v := by
    unfold Relaxes Rewritten
    simp only [upd]
    constructor
    · rintro ⟨hv, hvis, hne, hlt⟩
      have hvu : v ≠ u := by
        intro h; rw [if_pos h] at hvis; cases hvis
      rw [if_neg hvu] at hvis
      rcases hg u v with h | h
      · rw [h, wrap32_small _ (by omega) (by unfold INT_MAX at h1; omega)] at hlt
        exact ⟨hv, hvu, hvis, hne, hlt⟩
      · exact absurd h hne
    · rintro ⟨hv, hvu, hvis, hne, hlt⟩
      refine ⟨hv, by rw [if_neg hvu]; exact hvis, hne, ?_⟩
      rcases hg u v with h | h
      · rw [h, wrap32_small _ (by omega) (by unfold INT_MAX at h1; omega)]
        exact hlt
      · exact absurd h hne
  have hw : Rewritten N graph s u v → wrap32 (s.dist u + graph u v) = s.dist u + 1 := by
    rintro ⟨_, _, _, hne, _⟩
    rcases hg u v with h | h
    · rw [h, wrap32_small _ (by omega) (by unfold INT_MAX at h1; omega)]
    · exact absurd h hne
  by_cases hc : Rewritten N graph s u v
  · rw [if_pos (hiff.mpr hc), if_pos (hiff.mpr hc), if_pos hc, if_pos hc]
    exact ⟨hw hc, rfl⟩
  · rw [if_neg (fun h => hc (hiff.mp h)), if_neg (fun h => hc (hiff.mp h)), if_neg hc,
      if_neg hc]
    exact ⟨rfl, rfl⟩

theorem visited_card_insert (N : Nat) (vis : Nat → Bool) (u : Nat) (hu : u < N)
    (huv : vis u = false) :
    ((Finset.range N).filter (fun v => upd vis u true v = true)).card =
      ((Finset.range N).filter (fun v => vis v = true)).card + 1 := by
  have hset : (Finset.range N).filter (fun v => upd vis u true v = true) =
      insert u ((Finset.range N).filter (fun v => vis v = true)) := by
    ext v
    simp only [Finset.mem_filter, Finset.mem_range, Finset.mem_insert, upd]
    by_cases hvu : v = u
    · subst hvu; simp [hu]
    · simp [hvu]
  rw [hset, Finset.card_insert_of_not_mem]
  simp [huv]

/-- An iteration that selects a node of finite distance keeps the invariant. -/
theorem Inv_step (N : Nat) (graph : Nat → Nat → Int) (k : Nat) (s : State) (u : Nat)
    (hN : (N : Int) ≤ INT_MAX) (hg : ∀ a b, graph a b = 1 ∨ graph a b = INT_MAX)
    (hk : k + 1 < N) (hI : Inv N graph k s) (hu : u < N) (huv : s.visited u = false)
    (hmin : ∀ v, v < N → s.visited v = false → s.dist u ≤ s.dist v)
    (hfin : s.dist u ≠ INT_MAX) :
    Inv N graph (k + 1) (relax N graph u { s with visited := upd s.visited u true }) := by
  have hMAX : INT_MAX = 2147483647 := rfl
  obtain ⟨hu0, huk, huw⟩ : 0 ≤ s.dist u ∧ s.dist u ≤ (k : Int) ∧
      Walk (Adj N graph) 0 u (s.dist u).toNat := by
    rcases hI.fin u with h | h
    · exact absurd h hfin
    · exact h
  have hu1 : s.dist u + 1 ≤ INT_MAX := by omega
  have hch := iteration_char N graph s u hg hu0 hu1
  have hvs : (relax N graph u { s with visited := upd s.visited u true }).visited =
      upd s.visited u true := relax_visited N graph u _ (by simp [upd])
  generalize relax N graph u { s with visited := upd s.visited u true } = t at hch hvs ⊢
  have hdist : ∀ v, t.dist v = if Rewritten N graph s u v then s.dist u + 1 else s.dist v :=
    fun v => (hch v).1
  have hprev : ∀ v, t.prev v = if Rewritten N graph s u v then (u : Int) else s.prev v :=
    fun v => (hch v).2
  have hkeep : ∀ v, s.visited v = true → t.dist v = s.dist v := by
    intro v hv
    rw [hdist v, if_neg]
    rintro ⟨_, _, h, _⟩
    rw [hv] at h; cases h
  have hkeepu : t.dist u = s.dist u := by
    rw [hdist u, if_neg]
    rintro ⟨_, h, _⟩
    exact h rfl
  have hdec : ∀ v, t.dist v ≤ s.dist v := by
    intro v
    rw [hdist v]
    by_cases hc : Rewritten N graph s u v
    · rw [if_pos hc]; exact le_of_lt hc.2.2.2.2
    · rw [if_neg hc]
  have hvis' : ∀ v, t.visited v = true ↔ (v = u ∨ s.visited v = true) := by
    intro v
    rw [hvs]
    by_cases hvu : v = u
    · subst hvu; simp [upd]
    · simp [upd, hvu]
  have hunv' : ∀ v, t.visited v = false → v ≠ u ∧ s.visited v = false := by
    intro v hv
    constructor
    · intro h
      have := (hvis' v).mpr (Or.inl h)
      rw [this] at hv; cases hv
    · by_contra h
      have h' : s.visited v = true := by simpa using h
      have := (hvis' v).mpr (Or.inr h')
      rw [this] at hv; cases hv
  refine
    { src := ?_, srcPrev := ?_, fin := ?_, vis := ?_, closed := ?_, mono := ?_,
      count := ?_, prevInf := ?_, prevFin := ?_ }
  · rw [hdist 0, if_neg, hI.src]
    rintro ⟨_, _, _, _, h⟩
    rw [hI.src] at h; omega
  · rw [hprev 0, if_neg, hI.srcPrev]
    rintro ⟨_, _, _, _, h⟩
    rw [hI.src] at h; omega
  · intro v
    rw [hdist v]
    by_cases hc : Rewritten N graph s u v
    · rw [if_pos hc]
      right
      refine ⟨by omega, by push_cast; omega, ?_⟩
      have hlen : (s.dist u + 1).toNat = (s.dist u).toNat + 1 := by omega
      rw [hlen]
      exact Walk.snoc huw ⟨hu, hc.1, hc.2.2.2.1⟩
    · rw [if_neg hc]
      rcases hI.fin v with h | ⟨h0, hk', hw⟩
      · exact Or.inl h
      · exact Or.inr ⟨h0, by push_cast; omega, hw⟩
  · intro w hw
    rcases (hvis' w).mp hw with h | h
    · subst h
      rw [hkeepu]
      exact ⟨hu, hu0, by push_cast; omega⟩
    · rw [hkeep w h]
      obtain ⟨h1, h2, h3⟩ := hI.vis w h
      exact ⟨h1, h2, by push_cast; omega⟩
  · intro w v hw hadj
    rcases (hvis' w).mp hw with h | h
    · subst h
      rw [hkeepu, hdist v]
      by_cases hc : Rewritten N graph s w v
      · rw [if_pos hc]
      · rw [if_neg hc]
        by_cases hvw : v = w
        · subst hvw; omega
        · by_cases hvv : s.visited v = true
          · have := hI.mono v w hvv hu huv
            omega
          · have hvf : s.visited v = false := by simpa using hvv
            by_contra hlt
            exact hc ⟨hadj.2.1, hvw, hvf, hadj.2.2, by omega⟩
    · rw [hkeep w h]
      have := hI.closed w v h hadj
      have := hdec v
      omega
  · intro w v hw hvN hv
    obtain ⟨hvu, hvf⟩ := hunv' v hv
    have huv' : s.dist u ≤ s.dist v := hmin v hvN hvf
    have hwu : t.dist w ≤ s.dist u := by
      rcases (hvis' w).mp hw with h | h
      · subst h; rw [hkeepu]
      · rw [hkeep w h]; exact hI.mono w u h hu huv
    rw [hdist v]
    by_cases hc : Rewritten N graph s u v
    · rw [if_pos hc]; omega
    · rw [if_neg hc]; omega
  · rw [hvs, visited_card_insert N s.visited u hu huv, hI.count]
  · intro v hv
    rw [hdist v] at hv
    rw [hprev v]
    by_cases hc : Rewritten N graph s u v
    · rw [if_pos hc] at hv; omega
    · rw [if_neg hc] at hv ⊢
      exact hI.prevInf v hv
  · intro v hv0 hv
    rw [hdist v] at hv ⊢
    rw [hprev v]
    by_cases hc : Rewritten N graph s u v
    · rw [if_pos hc, if_pos hc]
      exact ⟨u, rfl, (hvis' u).mpr (Or.inl rfl), ⟨hu, hc.1, hc.2.2.2.1⟩, by rw [hkeepu]⟩
    · rw [if_neg hc] at hv ⊢
      rw [if_neg hc]
      obtain ⟨p, hp1, hp2, hp3, hp4⟩ := hI.prevFin v hv0 hv
      exact ⟨p, hp1, (hvis' p).mpr (Or.inr hp2), hp3, by rw [hkeep p hp2]; exact hp4⟩

/-- Along any walk from the source, either the end point already has a distance no
larger than the length of the walk, or some unvisited node has one. -/
theorem walk_front (N : Nat) (graph : Nat → Nat → Int) (k : Nat) (s : State)
    (hI : Inv N graph k s) (hk : (k : Int) < INT_MAX) (v n : Nat)
    (h : Walk (Adj N graph) 0 v n) :
    (s.dist v ≠ INT_MAX ∧ s.dist v ≤ (n : Int)) ∨
    (∃ w, w < N ∧ s.visited w = false ∧ s.dist w ≠ INT_MAX ∧ s.dist w ≤ (n : Int)) := by
  induction h with
  | nil =>
    left
    rw [hI.src]
    exact ⟨by decide, le_refl _⟩
  | @snoc a b m _ hadj ih =>
    rcases ih with ⟨hfin, hle⟩ | ⟨w, hw1, hw2, hw3, hw4⟩
    · by_cases hv : s.visited a = true
      · left
        have h1 := hI.closed a b hv hadj
        have h2 := (hI.vis a hv).2.2
        exact ⟨by omega, by push_cast; omega⟩
      · right
        exact ⟨a, hadj.1, by simpa using hv, hfin, by push_cast; omega⟩
    · right
      exact ⟨w, hw1, hw2, hw3, by push_cast; omega⟩

/-- When every unvisited node has distance `INT_MAX`, the visited nodes are settled. -/
theorem Final_of_Inv_closed (N : Nat) (graph : Nat → Nat → Int) (k : Nat) (s : State)
    (hI : Inv N graph k s) (hN : 0 < N) (hkN : k < N) (hNmax : (N : Int) ≤ INT_MAX)
    (hall : ∀ v, v < N → s.visited v = false → s.dist v = INT_MAX) :
    Final N graph (fun v => s.visited v = true) s := by
  have hfront : ∀ n, Walk (Adj N graph) 0 (N - 1) n →
      s.dist (N - 1) ≠ INT_MAX ∧ s.dist (N - 1) ≤ (n : Int) := by
    intro n hw
    rcases walk_front N graph k s hI (by omega) (N - 1) n hw with h | ⟨w, hw1, hw2, hw3, _⟩
    · exact h
    · exact absurd (hall w hw1 hw2) hw3
  refine { src := ?_, bound := ?_, chain := ?_, sinkIn := ?_, sinkOut := ?_ }
  · intro _; exact ⟨hI.src, hI.srcPrev⟩
  · intro v hv
    obtain ⟨h1, h2, h3⟩ := hI.vis v hv
    exact ⟨h1, h2, by omega⟩
  · intro v hv hv0
    have h3 := (hI.vis v hv).2.2
    obtain ⟨p, hp1, hp2, hp3, hp4⟩ := hI.prevFin v hv0 (by omega)
    exact ⟨p, hp2, hp1, hp3, hp4⟩
  · intro hv
    have h3 := (hI.vis (N - 1) hv).2.2
    refine ⟨?_, fun n hw => (hfront n hw).2⟩
    rcases hI.fin (N - 1) with h | h
    · omega
    · exact h.2.2
  · intro hv
    have hf : s.visited (N - 1) = false := by simpa using hv
    have hd := hall (N - 1) (by omega) hf
    exact ⟨hd, hI.prevInf _ hd, fun n hw => (hfront n hw).1 hd⟩

theorem unvisited_unique (N : Nat) (vis : Nat → Bool) (w : Nat) (hN : 0 < N)
    (hcount : ((Finset.range N).filter (fun v => vis v = true)).card = N - 1)
    (hw : w < N) (hwv : vis w = false) (hsv : vis (N - 1) = false) : w = N - 1 := by
  by_contra hne
  have hsub : (Finset.range N).filter (fun v => vis v = true) ⊆
      ((Finset.range N).erase w).erase (N - 1) := by
    intro x hx
    simp only [Finset.mem_filter, Finset.mem_range] at hx
    simp only [Finset.mem_erase, Finset.mem_range]
    refine ⟨?_, ?_, hx.1⟩
    · intro h; rw [h, hsv] at hx; exact absurd hx.2 (by decide)
    · intro h; rw [h, hwv] at hx; exact absurd hx.2 (by decide)
  have hcard := Finset.card_le_card hsub
  rw [Finset.card_erase_of_mem, Finset.card_erase_of_mem, Finset.card_range, hcount] at hcard
  · omega
  · simp [hw]
  · simp only [Finset.mem_erase, Finset.mem_range]
    exact ⟨fun h => hne h.symm, by omega⟩

/-- After `N - 1` iterations that all selected nodes of finite distance, the nodes
of finite distance are settled as far as the sink is concerned. -/
theorem Final_of_Inv_end (N : Nat) (graph : Nat → Nat → Int) (s : State)
    (hI : Inv N graph (N - 1) s) (hN : 0 < N) (hNmax : (N : Int) ≤ INT_MAX) :
    Final N graph (fun v => v < N ∧ s.dist v ≠ INT_MAX) s := by
  have hfront : ∀ n, Walk (Adj N graph) 0 (N - 1) n →
      s.dist (N - 1) ≠ INT_MAX ∧ s.dist (N - 1) ≤ (n : Int) := by
    intro n hw
    rcases walk_front N graph (N - 1) s hI (by omega) (N - 1) n hw with
      h | ⟨w, hw1, hw2, hw3, hw4⟩
    · exact h
    · by_cases hs : s.visited (N - 1) = true
      · have h1 := hI.mono (N - 1) w hs hw1 hw2
        have h2 := (hI.vis (N - 1) hs).2.2
        exact ⟨by omega, by omega⟩
      · have hsf : s.visited (N - 1) = false := by simpa using hs
        have := unvisited_unique N s.visited w hN hI.count hw1 hw2 hsf
        subst this
        exact ⟨hw3, hw4⟩
  refine { src := ?_, bound := ?_, chain := ?_, sinkIn := ?_, sinkOut := ?_ }
  · intro _; exact ⟨hI.src, hI.srcPrev⟩
  · rintro v ⟨hv, hd⟩
    rcases hI.fin v with h | ⟨h1, h2, _⟩
    · exact absurd h hd
    · exact ⟨hv, h1, by omega⟩
  · rintro v ⟨hv, hd⟩ hv0
    obtain ⟨p, hp1, hp2, hp3, hp4⟩ := hI.prevFin v hv0 hd
    have := (hI.vis p hp2).2.2
    exact ⟨p, ⟨hp3.1, by omega⟩, hp1, hp3, hp4⟩
  · rintro ⟨hv, hd⟩
    refine ⟨?_, fun n hw => (hfront n hw).2⟩
    rcases hI.fin (N - 1) with h | h
    · exact absurd h hd
    · exact h.2.2
  · intro hv
    have hd : s.dist (N - 1) = INT_MAX := by
      by_contra h
      exact hv ⟨by omega, h⟩
    exact ⟨hd, hI.prevInf _ hd, fun n hw => (hfront n hw).1 hd⟩

/-- The predicate `Final` only reads the entries of settled nodes and of the sink. -/
theorem Final_frame (N : Nat) (graph : Nat → Nat → Int) (C : Nat → Prop) (s t : State)
    (hF : Final N graph C s)
    (h : ∀ v, (C v ∨ v = N - 1) → t.dist v = s.dist v ∧ t.prev v = s.prev v) :
    Final N graph C t := by
  refine { src := ?_, bound := ?_, chain := ?_, sinkIn := ?_, sinkOut := ?_ }
  · intro h0
    rw [(h 0 (Or.inl h0)).1, (h 0 (Or.inl h0)).2]
    exact hF.src h0
  · intro v hv
    rw [(h v (Or.inl hv)).1]
    exact hF.bound v hv
  · intro v hv hv0
    obtain ⟨p, hp1, hp2, hp3, hp4⟩ := hF.chain v hv hv0
    refine ⟨p, hp1, ?_, hp3, ?_⟩
    · rw [(h v (Or.inl hv)).2]; exact hp2
    · rw [(h v (Or.inl hv)).1, (h p (Or.inl hp1)).1]; exact hp4
  · intro hv
    rw [(h (N - 1) (Or.inr rfl)).1]
    exact hF.sinkIn hv
  · intro hv
    rw [(h (N - 1) (Or.inr rfl)).1, (h (N - 1) (Or.inr rfl)).2]
    exact hF.sinkOut hv

/-- An iteration never changes the entries of a node that was visited before it. -/
theorem iteration_frame (N : Nat) (graph : Nat → Nat → Int) (s t : State)
    (h : iteration N graph s = some t) (v : Nat) (hv : s.visited v = true) :
    t.visited v = true ∧ t.dist v = s.dist v ∧ t.prev v = s.prev v := by
  unfold iteration at h
  simp only at h
  split at h
  · cases h
  · injection h with h
    subst h
    have hu1 : ({ s with visited := upd s.visited (selectMin N s).2.toNat true } :
        State).visited (selectMin N s).2.toNat = true := by simp [upd]
    have hv1 : ({ s with visited := upd s.visited (selectMin N s).2.toNat true } :
        State).visited v = true := by
      simp only [upd]; split
      · rfl
      · exact hv
    refine ⟨?_, relax_frame N graph _ _ hu1 v hv1⟩
    rw [relax_visited N graph _ _ hu1]
    exact hv1

theorem Closed_iteration (N : Nat) (graph : Nat → Nat → Int) (s t : State)
    (hC : Closed N graph s) (h : iteration N graph s = some t) : Closed N graph t := by
  obtain ⟨C, hF, hvis, hsink⟩ := hC
  refine ⟨C, Final_frame N graph C s t hF ?_, ?_, ?_⟩
  · rintro v (hv | hv)
    · exact (iteration_frame N graph s t h v (hvis v hv)).2
    · subst hv; exact (iteration_frame N graph s t h _ hsink).2
  · intro v hv; exact (iteration_frame N graph s t h v (hvis v hv)).1
  · exact (iteration_frame N graph s t h _ hsink).1

theorem mainLoop_Closed (N : Nat) (graph : Nat → Nat → Int) (count : Nat) (s : State)
    (hC : Closed N graph s) : Closed N graph (mainLoop N graph count s) := by
  induction count generalizing s with
  | zero => exact hC
  | succ r ih =>
    unfold mainLoop
    cases h : iteration N graph s with
    | none => exact hC
    | some t => exact ih t (Closed_iteration N graph s t hC h)

theorem Inv_dist_le (N : Nat) (graph : Nat → Nat → Int) (k : Nat) (s : State)
    (hI : Inv N graph k s) (hk : (k : Int) ≤ INT_MAX) (v : Nat) : s.dist v ≤ INT_MAX := by
  rcases hI.fin v with h | h
  · rw [h]
  · omega

/-- The iteration in which the selected node has distance `INT_MAX`: the nodes visited
so far are settled, and the sink is visited afterwards. -/
theorem Closed_of_Inv (N : Nat) (graph : Nat → Nat → Int) (k : Nat) (s : State) (u : Nat)
    (hI : Inv N graph k s) (hN : 0 < N) (hkN : k < N) (hNmax : (N : Int) ≤ INT_MAX)
    (hu : u < N)
    (hmin : ∀ v, v < N → s.visited v = false → s.dist u ≤ s.dist v)
    (htie : ∀ v, v < N → u < v → s.visited v = false → s.dist u < s.dist v)
    (hinf : s.dist u = INT_MAX) :
    Closed N graph (relax N graph u { s with visited := upd s.visited u true }) := by
  have hall : ∀ v, v < N → s.visited v = false → s.dist v = INT_MAX := by
    intro v hv hvf
    have h1 := hmin v hv hvf
    have h2 := Inv_dist_le N graph k s hI (by omega) v
    omega
  have hF := Final_of_Inv_closed N graph k s hI hN hkN hNmax hall
  have hu1 : ({ s with visited := upd s.visited u true } : State).visited u = true := by
    simp [upd]
  have hold : ∀ v, s.visited v = true →
      ({ s with visited := upd s.visited u true } : State).visited v = true := by
    intro v hv
    simp only [upd]; split
    · rfl
    · exact hv
  have hsink : ({ s with visited := upd s.visited u true } : State).visited (N - 1) = true := by
    by_cases hs : s.visited (N - 1) = true
    · exact hold _ hs
    · have hsf : s.visited (N - 1) = false := by simpa using hs
      have : u = N - 1 := by
        by_contra hne
        have h1 := htie (N - 1) (by omega) (by omega) hsf
        have h2 := hall (N - 1) (by omega) hsf
        omega
      rw [← this]; exact hu1
  refine ⟨fun v => s.visited v = true, Final_frame N graph _ s _ hF ?_, ?_, ?_⟩
  · rintro v (hv | hv)
    · exact relax_frame N graph u _ hu1 v (hold v hv)
    · subst hv; exact relax_frame N graph u _ hu1 _ hsink
  · intro v hv
    rw [relax_visited N graph u _ hu1]; exact hold v hv
  · rw [relax_visited N graph u _ hu1]; exact hsink

/-- When the loop is left through `break`, every node is visited and settled. -/
theorem Closed_of_break (N : Nat) (graph : Nat → Nat → Int) (k : Nat) (s : State)
    (hI : Inv N graph k s) (hN : 0 < N) (hkN : k < N) (hNmax : (N : Int) ≤ INT_MAX)
    (hall : ∀ v, v < N → s.visited v = true) : Closed N graph s := by
  refine ⟨fun v => s.visited v = true,
    Final_of_Inv_closed N graph k s hI hN hkN hNmax ?_, fun _ h => h, hall _ (by omega)⟩
  intro v hv hvf
  rw [hall v hv] at hvf; cases hvf

/-- The arrays at the end of the main loop are settled, from any state satisfying the
invariant with the right number of iterations left. -/
theorem mainLoop_Final (N : Nat) (graph : Nat → Nat → Int)
    (hN : 0 < N) (hNmax : (N : Int) ≤ INT_MAX)
    (hg : ∀ a b, graph a b = 1 ∨ graph a b = INT_MAX)
    (count k : Nat) (s : State) (hI : Inv N graph k s) (hk : k + count = N - 1) :
    ∃ C : Nat → Prop, Final N graph C (mainLoop N graph count s) := by
  induction count generalizing k s with
  | zero =>
    have hk' : k = N - 1 := by omega
    subst hk'
    exact ⟨_, Final_of_Inv_end N graph s hI hN hNmax⟩
  | succ r ih =>
    unfold mainLoop
    have hle : ∀ v, s.dist v ≤ INT_MAX := Inv_dist_le N graph k s hI (by omega)
    rcases selectMin_spec N s hle with ⟨hm, hall⟩ | ⟨u, hu, hm, huv, hmin, htie⟩
    · have hit : iteration N graph s = none := by
        unfold iteration; simp [hm]
      rw [hit]
      obtain ⟨C, hF, _⟩ := Closed_of_break N graph k s hI hN (by omega) hNmax hall
      exact ⟨C, hF⟩
    · have hit : iteration N graph s =
          some (relax N graph u { s with visited := upd s.visited u true }) := by
        unfold iteration
        simp only [hm, Int.toNat_ofNat]
        rw [if_neg (by omega)]
      rw [hit]
      by_cases hinf : s.dist u = INT_MAX
      · obtain ⟨C, hF, _⟩ := mainLoop_Closed N graph r _
          (Closed_of_Inv N graph k s u hI hN (by omega) hNmax hu hmin htie hinf)
        exact ⟨C, hF⟩
      · exact ih (k + 1) _
          (Inv_step N graph k s u hNmax hg (by omega) hI hu huv hmin hinf) (by omega)

/-- The arrays left by the main loop of `ShortestPath` are settled. -/
theorem dijkstra_Final (N : Nat) (graph : Nat → Nat → Int)
    (hN : 0 < N) (hNmax : (N : Int) ≤ INT_MAX)
    (hg : ∀ a b, graph a b = 1 ∨ graph a b = INT_MAX) :
    ∃ C : Nat → Prop, Final N graph C (dijkstra N graph) :=
  mainLoop_Final N graph hN hNmax hg (N - 1) 0 initState (Inv_init N graph) (by omega)

/-! ## Path reconstruction -/

theorem reconstruct_stop (prev : Nat → Int) (room : Nat) :
    reconstruct prev room (-1) = some [] := by
  cases room <;> simp [reconstruct]

theorem reconstruct_succ (prev : Nat → Int) (room : Nat) (a : Int) (ha : a ≠ -1) :
    reconstruct prev (room + 1) a =
      (reconstruct prev room (prev a.toNat)).map (fun p => a :: p) := by
  rw [reconstruct, if_neg ha]

theorem reconstruct_single (prev : Nat → Int) (room v : Nat) (h : prev v = -1) :
    reconstruct prev (room + 1) (v : Int) = some [(v : Int)] := by
  rw [reconstruct_succ _ _ _ (by omega)]
  simp only [Int.toNat_ofNat]
  rw [h, reconstruct_stop]
  rfl

/-- From a settled node the reconstruction loop follows the predecessor links down
to the source and stops there, using one cell of `path` per unit of distance. -/
theorem reconstruct_chain (N : Nat) (graph : Nat → Nat → Int) (C : Nat → Prop) (s : State)
    (hF : Final N graph C s) (d : Nat) :
    ∀ (v room : Nat), C v → (s.dist v).toNat = d → d < room →
      ∃ p : List Nat, reconstruct s.prev room (v : Int) = some (p.map Int.ofNat) ∧
        p.length = d + 1 ∧ p.head? = some v ∧ p.getLast? = some 0 ∧ (∀ x ∈ p, C x) ∧
        List.Chain' (fun a b => Adj N graph b a ∧ s.dist a = s.dist b + 1) p := by
  induction d with
  | zero =>
    intro v room hv hd hroom
    have hv0 : v = 0 := by
      by_contra hne
      obtain ⟨u, hu, _, _, hdist⟩ := hF.chain v hv hne
      have := (hF.bound u hu).2.1
      have := (hF.bound v hv).2.1
      omega
    subst hv0
    obtain ⟨r, rfl⟩ : ∃ r, room = r + 1 := ⟨room - 1, by omega⟩
    refine ⟨[0], ?_, rfl, rfl, rfl, ?_, List.chain'_singleton 0⟩
    · rw [reconstruct_succ _ _ _ (by omega)]
      simp only [Nat.cast_zero, Int.toNat_zero]
      rw [(hF.src hv).2, reconstruct_stop]
      rfl
    · intro x hx
      simp only [List.mem_singleton] at hx
      subst hx; exact hv
  | succ d ih =>
    intro v room hv hd hroom
    have hne : v ≠ 0 := by
      intro h; subst h
      rw [(hF.src hv).1] at hd
      simp at hd
    obtain ⟨u, hu, hprev, hadj, hdist⟩ := hF.chain v hv hne
    obtain ⟨r, rfl⟩ : ∃ r, room = r + 1 := ⟨room - 1, by omega⟩
    have hud : (s.dist u).toNat = d := by
      have := (hF.bound u hu).2.1
      omega
    obtain ⟨p, hp1, hp2, hp3, hp4, hp5, hp6⟩ := ih u r hu hud (by omega)
    refine ⟨v :: p, ?_, by simp [hp2], rfl, ?_, ?_, ?_⟩
    · rw [reconstruct_succ _ _ _ (by omega)]
      simp only [Int.toNat_ofNat]
      rw [hprev, hp1]
      rfl
    · cases p with
      | nil => simp at hp2
      | cons y ys => simpa [List.getLast?_cons_cons] using hp4
    · intro x hx
      rcases List.mem_cons.mp hx with h | h
      · subst h; exact hv
      · exact hp5 x h
    · refine List.Chain'.cons' hp6 ?_
      intro y hy
      rw [hp3] at hy
      cases hy
      exact ⟨hadj, hdist⟩

/-- The outcome of `ShortestPath` in terms of the matrix built from its edge tokens:
either the sink cannot be reached and the no-path message is printed, or the
printed names are those of a walk from index `0` to index `N - 1` whose number of
edges is `dist[N-1]` and is the least possible. -/
theorem ShortestPath_outcome (nodes edges : List String) (graph : Nat → Nat → Int)
    (hN : nodes ≠ []) (hNmax : (nodes.length : Int) ≤ INT_MAX)
    (hb : buildGraph nodes edges = some graph)
    (hg : ∀ a b, graph a b = 1 ∨ graph a b = INT_MAX) :
    ((dijkstra nodes.length graph).dist (nodes.length - 1) = INT_MAX ∧
      (∀ k, ¬ Walk (Adj nodes.length graph) 0 (nodes.length - 1) k) ∧
      ShortestPath nodes edges =
        some (Output.noPath (nodes.getD 0 "") (nodes.getD (nodes.length - 1) ""))) ∨
    (∃ (p : List Nat) (d : Nat),
      (dijkstra nodes.length graph).dist (nodes.length - 1) = (d : Int) ∧
      Walk (Adj nodes.length graph) 0 (nodes.length - 1) d ∧
      (∀ k, Walk (Adj nodes.length graph) 0 (nodes.length - 1) k → d ≤ k) ∧
      p.length = d + 1 ∧ p.head? = some 0 ∧ p.getLast? = some (nodes.length - 1) ∧
      (∀ x ∈ p, x < nodes.length) ∧
      List.Chain' (fun a b => Adj nodes.length graph a b ∧
        (dijkstra nodes.length graph).dist b = (dijkstra nodes.length graph).dist a + 1) p ∧
      ShortestPath nodes edges = some (Output.path (p.map (fun i => nodes.getD i "")))) := by
  have hpos : 0 < nodes.length := List.length_pos.mpr hN
  obtain ⟨C, hF⟩ := dijkstra_Final nodes.length graph hpos hNmax hg
  have hcast : ((nodes.length : Int) - 1) = ((nodes.length - 1 : Nat) : Int) := by omega
  have hMAX : INT_MAX = 2147483647 := rfl
  by_cases hC : C (nodes.length - 1)
  · right
    obtain ⟨hb1, hb2, hb3⟩ := hF.bound _ hC
    obtain ⟨hw, hmin⟩ := hF.sinkIn hC
    obtain ⟨p, hp1, hp2, hp3, hp4, hp5, hp6⟩ :=
      reconstruct_chain nodes.length graph C _ hF _ (nodes.length - 1) nodes.length hC rfl
        (by omega)
    refine ⟨p.reverse, ((dijkstra nodes.length graph).dist (nodes.length - 1)).toNat,
      by omega, hw, ?_, by simp [hp2], ?_, ?_, ?_, ?_, ?_⟩
    · intro k hk
      have := hmin k hk
      omega
    · rw [List.head?_reverse]; exact hp4
    · rw [List.getLast?_reverse]; exact hp3
    · intro x hx
      exact (hF.bound x (hp5 x (List.mem_reverse.mp hx))).1
    · rw [List.chain'_reverse]
      exact hp6
    · unfold ShortestPath
      simp only
      rw [if_neg (by omega), hb]
      simp only
      rw [hcast, hp1]
      simp only
      rw [if_neg (by omega)]
      simp [List.map_reverse, Function.comp_def]
  · left
    obtain ⟨hd, hprev, hno⟩ := hF.sinkOut hC
    refine ⟨hd, hno, ?_⟩
    unfold ShortestPath
    simp only
    rw [if_neg (by omega), hb]
    simp only
    have hrec : reconstruct (dijkstra nodes.length graph).prev nodes.length
        ((nodes.length - 1 : Nat) : Int) = some [((nodes.length - 1 : Nat) : Int)] := by
      have h := reconstruct_single (dijkstra nodes.length graph).prev (nodes.length - 1)
        (nodes.length - 1) hprev
      rwa [Nat.sub_add_cancel hpos] at h
    rw [hcast]
    rw [hrec]
    simp only
    rw [if_pos hd]

/-! ## Node names and the adjacency matrix -/

theorem getIndexFrom_spec (name : String) (l : List String) (k : Nat) :
    (getIndexFrom name l k = -1 ∧ name ∉ l) ∨
    (∃ i, i < l.length ∧ getIndexFrom name l k = ((k + i : Nat) : Int) ∧
      l.getD i "" = name ∧ ∀ j, j < i → l.getD j "" ≠ name) := by
  induction l generalizing k with
  | nil => left; exact ⟨rfl, List.not_mem_nil _⟩
  | cons n rest ih =>
    unfold getIndexFrom
    by_cases h : name = n
    · right
      rw [if_pos h]
      exact ⟨0, by simp, rfl, by simp [h], fun j hj => absurd hj (Nat.not_lt_zero j)⟩
    · rw [if_neg h]
      rcases ih (k + 1) with ⟨h1, h2⟩ | ⟨i, hi, h1, h2, h3⟩
      · left
        refine ⟨h1, ?_⟩
        intro hm
        rcases List.mem_cons.mp hm with h' | h'
        · exact h h'
        · exact h2 h'
      · right
        refine ⟨i + 1, by simp [hi], ?_, by simpa using h2, ?_⟩
        · rw [h1]; congr 1; omega
        · intro j hj
          cases j with
          | zero => simpa using fun h' => h h'.symm
          | succ j => simpa using h3 j (by omega)

/-- The result of `getIndex` is `-1` or the position of the first node of that name. -/
theorem getIndex_spec (name : String) (nodes : List String) :
    (getIndex name nodes = -1 ∧ name ∉ nodes) ∨
    (∃ i, i < nodes.length ∧ getIndex name nodes = (i : Int) ∧
      nodes.getD i "" = name ∧ ∀ j, j < i → nodes.getD j "" ≠ name) := by
  unfold getIndex
  rcases getIndexFrom_spec name nodes 0 with h | ⟨i, hi, h1, h2, h3⟩
  · exact Or.inl h
  · exact Or.inr ⟨i, hi, by rw [h1]; congr 1; omega, h2, h3⟩

theorem getIndex_eq_natCast (name : String) (nodes : List String) (i : Nat)
    (h : getIndex name nodes = (i : Int)) : i < nodes.length ∧ nodes.getD i "" = name := by
  rcases getIndex_spec name nodes with ⟨h1, _⟩ | ⟨i', hi, h1, h2, _⟩
  · omega
  · have : i = i' := by omega
    subst this
    exact ⟨hi, h2⟩

theorem getIndex_eq_neg_one_iff (name : String) (nodes : List String) :
    getIndex name nodes = -1 ↔ name ∉ nodes := by
  rcases getIndex_spec name nodes with ⟨h1, h2⟩ | ⟨i, hi, h1, h2, _⟩
  · exact ⟨fun _ => h2, fun _ => h1⟩
  · constructor
    · intro h; omega
    · intro h
      exfalso; apply h
      rw [← h2, List.getD_eq_getElem nodes "" hi]
      exact List.getElem_mem hi

theorem getIndex_toNat (name : String) (nodes : List String) (h : getIndex name nodes ≠ -1) :
    getIndex name nodes = ((getIndex name nodes).toNat : Int) := by
  rcases getIndex_spec name nodes with ⟨h1, _⟩ | ⟨i, _, h1, _, _⟩
  · exact absurd h1 h
  · omega

/-- With distinct names, `getIndex` finds each node at its own position. -/
theorem getIndex_getD (nodes : List String) (hnd : nodes.Nodup) (i : Nat)
    (hi : i < nodes.length) : getIndex (nodes.getD i "") nodes = (i : Int) := by
  rcases getIndex_spec (nodes.getD i "") nodes with ⟨_, h2⟩ | ⟨i', hi', h1, h2, _⟩
  · exfalso; apply h2
    rw [List.getD_eq_getElem nodes "" hi]
    exact List.getElem_mem hi
  · rw [List.getD_eq_getElem nodes "" hi, List.getD_eq_getElem nodes "" hi'] at h2
    have := (hnd.getElem_inj_iff).mp h2
    rw [h1, this]

/-- One token of the edge loop: the entry named by the token becomes `1`, nothing
else changes. -/
theorem addEdge_spec (nodes : List String) (graph : Nat → Nat → Int) (e : String)
    (a b : String) (hp : parseEdge e = some (a, b)) :
    ∃ g, addEdge nodes graph e = some g ∧ ∀ i j,
      (g i j = 1 ↔ (graph i j = 1 ∨
        (getIndex a nodes = (i : Int) ∧ getIndex b nodes = (j : Int)))) ∧
      (g i j ≠ 1 → g i j = graph i j) := by
  unfold addEdge
  rw [hp]
  simp only
  by_cases hc : getIndex a nodes ≠ -1 ∧ getIndex b nodes ≠ -1
  · rw [if_pos hc]
    refine ⟨_, rfl, fun i j => ?_⟩
    have ha := getIndex_toNat a nodes hc.1
    have hb := getIndex_toNat b nodes hc.2
    simp only [upd]
    by_cases hi : i = (getIndex a nodes).toNat
    · by_cases hj : j = (getIndex b nodes).toNat
      · rw [if_pos hi]
        simp only [upd]
        rw [if_pos hj]
        refine ⟨⟨fun _ => Or.inr ⟨by omega, by omega⟩, fun _ => rfl⟩, fun h => absurd rfl h⟩
      · rw [if_pos hi]
        simp only [upd]
        rw [if_neg hj, ← hi]
        refine ⟨⟨fun h => Or.inl h, ?_⟩, fun _ => rfl⟩
        rintro (h | ⟨_, h⟩)
        · exact h
        · omega
    · rw [if_neg hi]
      refine ⟨⟨fun h => Or.inl h, ?_⟩, fun _ => rfl⟩
      rintro (h | ⟨h, _⟩)
      · exact h
      · omega
  · rw [if_neg hc]
    refine ⟨_, rfl, fun i j => ⟨⟨fun h => Or.inl h, ?_⟩, fun _ => rfl⟩⟩
    rintro (h | ⟨h1, h2⟩)
    · exact h
    · exfalso; apply hc
      constructor <;> omega

/-- The edge loop over tokens that all have two names. -/
theorem foldlM_addEdge_spec (nodes : List String) (edges : List String)
    (hwf : ∀ e ∈ edges, (parseEdge e).isSome = true) (g0 : Nat → Nat → Int) :
    ∃ g, edges.foldlM (addEdge nodes) g0 = some g ∧ ∀ i j,
      (g i j = 1 ↔ (g0 i j = 1 ∨ HasEdge nodes edges i j)) ∧
      (g i j ≠ 1 → g i j = g0 i j) := by
  induction edges generalizing g0 with
  | nil =>
    refine ⟨g0, rfl, fun i j => ⟨⟨fun h => Or.inl h, ?_⟩, fun _ => rfl⟩⟩
    rintro (h | ⟨e, he, _⟩)
    · exact h
    · exact absurd he (List.not_mem_nil e)
  | cons e es ih =>
    obtain ⟨⟨a, b⟩, hp⟩ := Option.isSome_iff_exists.mp (hwf e (List.mem_cons_self e es))
    obtain ⟨g1, hg1, h1⟩ := addEdge_spec nodes g0 e a b hp
    obtain ⟨g, hg, h2⟩ := ih (fun x hx => hwf x (List.mem_cons_of_mem e hx)) g1
    refine ⟨g, ?_, fun i j => ⟨?_, ?_⟩⟩
    · rw [List.foldlM_cons, hg1]
      exact hg
    · rw [(h2 i j).1, (h1 i j).1]
      constructor
      · rintro ((h | ⟨ha, hb⟩) | ⟨x, hx, hrest⟩)
        · exact Or.inl h
        · exact Or.inr ⟨e, List.mem_cons_self e es, a, b, hp, ha, hb⟩
        · exact Or.inr ⟨x, List.mem_cons_of_mem e hx, hrest⟩
      · rintro (h | ⟨x, hx, a', b', hp', ha, hb⟩)
        · exact Or.inl (Or.inl h)
        · rcases List.mem_cons.mp hx with hxe | hxe
          · subst hxe
            rw [hp] at hp'
            injection hp' with hp'
            injection hp' with h1' h2'
            subst h1'; subst h2'
            exact Or.inl (Or.inr ⟨ha, hb⟩)
          · exact Or.inr ⟨x, hxe, a', b', hp', ha, hb⟩
    · intro hne
      rw [(h2 i j).2 hne]
      apply (h1 i j).2
      intro h
      exact hne (((h2 i j).1).mpr (Or.inl h))

/-- The edge loop stops the run at the first token without two names. -/
theorem foldlM_addEdge_none (nodes : List String) (edges : List String)
    (hbad : ∃ e ∈ edges, parseEdge e = none) (g0 : Nat → Nat → Int) :
    edges.foldlM (addEdge nodes) g0 = none := by
  induction edges generalizing g0 with
  | nil =>
    obtain ⟨e, he, _⟩ := hbad
    exact absurd he (List.not_mem_nil e)
  | cons e es ih =>
    rw [List.foldlM_cons]
    cases hp : parseEdge e with
    | none => simp [addEdge, hp]
    | some ab =>
      obtain ⟨g1, hg1, _⟩ := addEdge_spec nodes g0 e ab.1 ab.2 hp
      rw [hg1]
      apply ih
      obtain ⟨x, hx, hxp⟩ := hbad
      rcases List.mem_cons.mp hx with h | h
      · subst h; rw [hp] at hxp; cases hxp
      · exact ⟨x, h, hxp⟩

/-- The matrix `ShortestPath` builds: entry `[i][j]` is `1` when some token names the
edge from `i` to `j`, and `INT_MAX` otherwise. -/
theorem buildGraph_spec (nodes edges : List String)
    (hwf : ∀ e ∈ edges, (parseEdge e).isSome = true) :
    ∃ g, buildGraph nodes edges = some g ∧
      (∀ i j, g i j = 1 ↔ HasEdge nodes edges i j) ∧
      (∀ i j, g i j = 1 ∨ g i j = INT_MAX) := by
  obtain ⟨g, hg, h⟩ := foldlM_addEdge_spec nodes edges hwf initGraph
  refine ⟨g, hg, fun i j => ?_, fun i j => ?_⟩
  · rw [(h i j).1]
    constructor
    · rintro (h' | h')
      · exact absurd h' (by simp [initGraph, INT_MAX])
      · exact h'
    · exact Or.inr
  · by_cases h1 : g i j = 1
    · exact Or.inl h1
    · exact Or.inr ((h i j).2 h1)

theorem HasEdge_iff_IsEdge (nodes edges : List String) (hnd : nodes.Nodup) (i j : Nat) :
    HasEdge nodes edges i j ↔ IsEdge nodes edges i j := by
  constructor
  · rintro ⟨e, he, a, b, hp, ha, hb⟩
    obtain ⟨hi, hia⟩ := getIndex_eq_natCast a nodes i ha
    obtain ⟨hj, hjb⟩ := getIndex_eq_natCast b nodes j hb
    exact ⟨hi, hj, e, he, by rw [hia, hjb]; exact hp⟩
  · rintro ⟨hi, hj, e, he, hp⟩
    exact ⟨e, he, _, _, hp, getIndex_getD nodes hnd i hi, getIndex_getD nodes hnd j hj⟩

theorem Walk_mono (E E' : Nat → Nat → Prop) (h : ∀ a b, E a b → E' a b) (u v k : Nat)
    (hw : Walk E u v k) : Walk E' u v k := by
  induction hw with
  | nil => exact Walk.nil
  | snoc _ hadj ih => exact Walk.snoc ih (h _ _ hadj)

/-- For valid input, the edges of the matrix are the edges named by the tokens. -/
theorem Adj_iff_IsEdge (nodes edges : List String) (graph : Nat → Nat → Int)
    (hnd : nodes.Nodup)
    (h1 : ∀ i j, graph i j = 1 ↔ HasEdge nodes edges i j)
    (h2 : ∀ i j, graph i j = 1 ∨ graph i j = INT_MAX) (i j : Nat) :
    Adj nodes.length graph i j ↔ IsEdge nodes edges i j := by
  rw [← HasEdge_iff_IsEdge nodes edges hnd, ← h1]
  constructor
  · rintro ⟨_, _, h⟩
    rcases h2 i j with h' | h'
    · exact h'
    · exact absurd h' h
  · intro h
    obtain ⟨hi, hj, _⟩ := (HasEdge_iff_IsEdge nodes edges hnd i j).mp ((h1 i j).mp h)
    exact ⟨hi, hj, by rw [h]; decide⟩

theorem sinkDist_eq (nodes edges : List String) (graph : Nat → Nat → Int)
    (hb : buildGraph nodes edges = some graph) :
    sinkDist nodes edges = some ((dijkstra nodes.length graph).dist (nodes.length - 1)) := by
  unfold sinkDist; rw [hb]; rfl

/-- The outcome of `ShortestPath` on valid input, in terms of the edge tokens. -/
theorem ShortestPath_valid (nodes edges : List String) (hv : ValidInput nodes edges) :
    ((∀ k, ¬ Walk (IsEdge nodes edges) 0 (nodes.length - 1) k) ∧
      sinkDist nodes edges = some INT_MAX ∧
      ShortestPath nodes edges =
        some (Output.noPath (nodes.getD 0 "") (nodes.getD (nodes.length - 1) ""))) ∨
    (∃ (p : List Nat) (d : Nat),
      sinkDist nodes edges = some (d : Int) ∧
      Walk (IsEdge nodes edges) 0 (nodes.length - 1) d ∧
      (∀ k, Walk (IsEdge nodes edges) 0 (nodes.length - 1) k → d ≤ k) ∧
      p.length = d + 1 ∧ p.head? = some 0 ∧ p.getLast? = some (nodes.length - 1) ∧
      (∀ x ∈ p, x < nodes.length) ∧ List.Chain' (IsEdge nodes edges) p ∧
      ShortestPath nodes edges = some (Output.path (p.map (fun i => nodes.getD i "")))) := by
  obtain ⟨g, hb, h1, h2⟩ := buildGraph_spec nodes edges hv.tokens
  have hadj := Adj_iff_IsEdge nodes edges g hv.distinct h1 h2
  have hto : ∀ v k, Walk (Adj nodes.length g) 0 v k → Walk (IsEdge nodes edges) 0 v k :=
    fun v k => Walk_mono _ _ (fun a b => (hadj a b).mp) 0 v k
  have hfrom : ∀ v k, Walk (IsEdge nodes edges) 0 v k → Walk (Adj nodes.length g) 0 v k :=
    fun v k => Walk_mono _ _ (fun a b => (hadj a b).mpr) 0 v k
  rcases ShortestPath_outcome nodes edges g hv.nonempty hv.fits hb h2 with
    ⟨hd, hno, hout⟩ | ⟨p, d, hd, hw, hmin, hlen, hhead, hlast, hmem, hchain, hout⟩
  · left
    refine ⟨fun k hk => hno k (hfrom _ k hk), ?_, hout⟩
    rw [sinkDist_eq nodes edges g hb, hd]
  · right
    refine ⟨p, d, ?_, hto _ d hw, fun k hk => hmin k (hfrom _ k hk), hlen, hhead, hlast,
      hmem, ?_, hout⟩
    · rw [sinkDist_eq nodes edges g hb, hd]
    · exact List.Chain'.imp (fun a b hab => (hadj a b).mp hab.1) hchain

theorem Walk_zero (E : Nat → Nat → Prop) (u v : Nat) (h : Walk E u v 0) : v = u := by
  cases h
  rfl

/-- C1: for valid input whose sink is reachable from the source, the value of
`dist[N-1]` is the number of hops of the printed path and equals the least number
of edges of a directed walk from node `0` to node `N-1` over the edges named by
the tokens. -/
theorem C1_sink_distance_is_minimum (nodes edges : List String)
    (hv : ValidInput nodes edges)
    (hreach : ∃ k, Walk (IsEdge nodes edges) 0 (nodes.length - 1) k) :
    ∃ (d : Nat) (names : List String),
      sinkDist nodes edges = some (d : Int) ∧
      ShortestPath nodes edges = some (Output.path names) ∧
      names.length = d + 1 ∧
      Walk (IsEdge nodes edges) 0 (nodes.length - 1) d ∧
      ∀ k, Walk (IsEdge nodes edges) 0 (nodes.length - 1) k → d ≤ k := by
  obtain ⟨k, hk⟩ := hreach
  rcases ShortestPath_valid nodes edges hv with
    ⟨hno, _, _⟩ | ⟨p, d, hd, hw, hmin, hlen, _, _, _, _, hout⟩
  · exact absurd hk (hno k)
  · exact ⟨d, _, hd, hout, by simp [hlen], hw, hmin⟩

theorem C1_witness :
    ∃ (d : Nat) (names : List String),
      sinkDist ["A", "B", "C", "D", "E"] ["A-B", "B-C", "C-D", "D-E", "A-E"] = some (d : Int) ∧
      ShortestPath ["A", "B", "C", "D", "E"] ["A-B", "B-C", "C-D", "D-E", "A-E"] =
        some (Output.path names) ∧
      names.length = d + 1 ∧
      Walk (IsEdge ["A", "B", "C", "D", "E"] ["A-B", "B-C", "C-D", "D-E", "A-E"]) 0
        (["A", "B", "C", "D", "E"].length - 1) d ∧
      ∀ k, Walk (IsEdge ["A", "B", "C", "D", "E"] ["A-B", "B-C", "C-D", "D-E", "A-E"]) 0
        (["A", "B", "C", "D", "E"].length - 1) k → d ≤ k :=
  C1_sink_distance_is_minimum ["A", "B", "C", "D", "E"] ["A-B", "B-C", "C-D", "D-E", "A-E"]
    ⟨by decide, by decide, by decide, by decide⟩
    ⟨1, Walk.snoc Walk.nil (by decide)⟩

/-- C2: for valid input, the no-path message is printed exactly when no directed
walk leads from the source to the sink, and a path is printed exactly when one
does. -/
theorem C2_unreachable_iff_no_walk (nodes edges : List String)
    (hv : ValidInput nodes edges) :
    (ShortestPath nodes edges =
        some (Output.noPath (nodes.getD 0 "") (nodes.getD (nodes.length - 1) "")) ↔
      ¬ ∃ k, Walk (IsEdge nodes edges) 0 (nodes.length - 1) k) ∧
    ((∃ names, ShortestPath nodes edges = some (Output.path names)) ↔
      ∃ k, Walk (IsEdge nodes edges) 0 (nodes.length - 1) k) := by
  rcases ShortestPath_valid nodes edges hv with
    ⟨hno, _, hout⟩ | ⟨p, d, _, hw, _, _, _, _, _, _, hout⟩
  · refine ⟨⟨fun _ => fun ⟨k, hk⟩ => hno k hk, fun _ => hout⟩, ⟨?_, ?_⟩⟩
    · rintro ⟨names, h⟩
      rw [hout] at h; cases h
    · rintro ⟨k, hk⟩
      exact absurd hk (hno k)
  · refine ⟨⟨?_, fun h => absurd ⟨d, hw⟩ h⟩, ⟨fun _ => ⟨d, hw⟩, fun _ => ⟨_, hout⟩⟩⟩
    intro h
    rw [hout] at h; cases h

theorem C2_witness :
    (ShortestPath ["A", "B", "C"] ["C-B"] =
        some (Output.noPath (["A", "B", "C"].getD 0 "")
          (["A", "B", "C"].getD (["A", "B", "C"].length - 1) "")) ↔
      ¬ ∃ k, Walk (IsEdge ["A", "B", "C"] ["C-B"]) 0 (["A", "B", "C"].length - 1) k) ∧
    ((∃ names, ShortestPath ["A", "B", "C"] ["C-B"] = some (Output.path names)) ↔
      ∃ k, Walk (IsEdge ["A", "B", "C"] ["C-B"]) 0 (["A", "B", "C"].length - 1) k) :=
  C2_unreachable_iff_no_walk ["A", "B", "C"] ["C-B"]
    ⟨by decide, by decide, by decide, by decide⟩

/-- C3: for valid input with a reachable sink, the printed sequence starts with the
name of the source, ends with the name of the sink, and has `dist[N-1] + 1`
elements. -/
theorem C3_path_endpoints_and_length (nodes edges : List String)
    (hv : ValidInput nodes edges)
    (hreach : ∃ k, Walk (IsEdge nodes edges) 0 (nodes.length - 1) k) :
    ∃ (names : List String) (d : Int),
      ShortestPath nodes edges = some (Output.path names) ∧
      names.head? = some (nodes.getD 0 "") ∧
      names.getLast? = some (nodes.getD (nodes.length - 1) "") ∧
      sinkDist nodes edges = some d ∧
      (names.length : Int) = d + 1 := by
  obtain ⟨k, hk⟩ := hreach
  rcases ShortestPath_valid nodes edges hv with
    ⟨hno, _, _⟩ | ⟨p, d, hd, _, _, hlen, hhead, hlast, _, _, hout⟩
  · exact absurd hk (hno k)
  · refine ⟨_, (d : Int), hout, ?_, ?_, hd, ?_⟩
    · rw [List.head?_map, hhead]; rfl
    · rw [List.getLast?_map, hlast]; rfl
    · simp [hlen]

theorem C3_witness :
    ∃ (names : List String) (d : Int),
      ShortestPath ["A", "B", "C"] ["A-B", "B-C", "C-A"] = some (Output.path names) ∧
      names.head? = some (["A", "B", "C"].getD 0 "") ∧
      names.getLast? = some (["A", "B", "C"].getD (["A", "B", "C"].length - 1) "") ∧
      sinkDist ["A", "B", "C"] ["A-B", "B-C", "C-A"] = some d ∧
      (names.length : Int) = d + 1 :=
  C3_path_endpoints_and_length ["A", "B", "C"] ["A-B", "B-C", "C-A"]
    ⟨by decide, by decide, by decide, by decide⟩
    ⟨2, Walk.snoc (Walk.snoc Walk.nil
      (show IsEdge ["A", "B", "C"] ["A-B", "B-C", "C-A"] 0 1 by decide)) (by decide)⟩

/-- C7: for valid input with at least two nodes and a token for the direct edge from
the source to the sink, the printed path is the source followed by the sink, and
`dist[N-1]` is `1`, whatever other edges there are. -/
theorem C7_direct_edge_wins (nodes edges : List String) (hv : ValidInput nodes edges)
    (h2 : 2 ≤ nodes.length)
    (hdirect : ∃ e ∈ edges,
      parseEdge e = some (nodes.getD 0 "", nodes.getD (nodes.length - 1) "")) :
    ShortestPath nodes edges =
        some (Output.path [nodes.getD 0 "", nodes.getD (nodes.length - 1) ""]) ∧
    sinkDist nodes edges = some 1 := by
  have hedge : IsEdge nodes edges 0 (nodes.length - 1) := ⟨by omega, by omega, hdirect⟩
  have hwalk : Walk (IsEdge nodes edges) 0 (nodes.length - 1) 1 := Walk.snoc Walk.nil hedge
  rcases ShortestPath_valid nodes edges hv with
    ⟨hno, _, _⟩ | ⟨p, d, hd, hw, hmin, hlen, hhead, hlast, _, _, hout⟩
  · exact absurd hwalk (hno 1)
  · have hd1 : d = 1 := by
      have h1 := hmin 1 hwalk
      have h0 : d ≠ 0 := by
        intro h; subst h
        have := Walk_zero _ _ _ hw
        omega
      omega
    subst hd1
    match p, hlen, hhead, hlast with
    | [a, b], _, hhead, hlast =>
      simp only [List.head?_cons, Option.some.injEq] at hhead
      simp only [List.getLast?_cons_cons, List.getLast?_singleton, Option.some.injEq] at hlast
      subst hhead; subst hlast
      exact ⟨hout, hd⟩

theorem C7_witness :
    ShortestPath ["A", "B", "C", "D", "E"] ["A-B", "B-C", "C-D", "D-E", "A-E"] =
        some (Output.path [["A", "B", "C", "D", "E"].getD 0 "",
          ["A", "B", "C", "D", "E"].getD (["A", "B", "C", "D", "E"].length - 1) ""]) ∧
    sinkDist ["A", "B", "C", "D", "E"] ["A-B", "B-C", "C-D", "D-E", "A-E"] = some 1 :=
  C7_direct_edge_wins ["A", "B", "C", "D", "E"] ["A-B", "B-C", "C-D", "D-E", "A-E"]
    ⟨by decide, by decide, by decide, by decide⟩ (by decide) (by decide)

theorem chain_is_range (M : Nat) (p : List Nat) :
    ∀ a, List.Chain' (fun x y => y = x + 1 ∨ (x = M ∧ y = 0)) p → p.head? = some a →
      a + p.length ≤ M + 1 → p = List.range' a p.length := by
  induction p with
  | nil => intro a _ h; cases h
  | cons x rest ih =>
    intro a hchain hhead hlen
    simp only [List.head?_cons, Option.some.injEq] at hhead
    subst hhead
    cases rest with
    | nil => rfl
    | cons y ys =>
      rw [List.chain'_cons] at hchain
      simp only [List.length_cons] at hlen
      have hy : y = x + 1 := by
        rcases hchain.1 with h | ⟨h, _⟩
        · exact h
        · omega
      have := ih (x + 1) hchain.2 (by rw [hy]; rfl) (by simp only [List.length_cons]; omega)
      rw [List.length_cons, List.range'_succ, ← this]

theorem names_of_range (nodes : List String) :
    (List.range' 0 nodes.length).map (fun i => nodes.getD i "") = nodes := by
  apply List.ext_getElem
  · simp
  · intro n h1 h2
    simp [h2]

/-- C8: for valid input whose edges are the chain `n0 → n1 → ... → n(N-1)`, with or
without the closing edge `n(N-1) → n0`, the printed path is the whole node list in
input order and `dist[N-1]` is `N - 1`. -/
theorem C8_chain_or_cycle (nodes edges : List String) (hv : ValidInput nodes edges)
    (hchain : ∀ i, i < nodes.length - 1 → IsEdge nodes edges i (i + 1))
    (honly : ∀ i, i < nodes.length → ∀ j, j < nodes.length → IsEdge nodes edges i j →
      j = i + 1 ∨ (i = nodes.length - 1 ∧ j = 0)) :
    ShortestPath nodes edges = some (Output.path nodes) ∧
    sinkDist nodes edges = some ((nodes.length : Int) - 1) := by
  have hpos : 0 < nodes.length := List.length_pos.mpr hv.nonempty
  have hwalk : ∀ i, i < nodes.length → Walk (IsEdge nodes edges) 0 i i := by
    intro i
    induction i with
    | zero => intro _; exact Walk.nil
    | succ i ih => intro hi; exact Walk.snoc (ih (by omega)) (hchain i (by omega))
  rcases ShortestPath_valid nodes edges hv with
    ⟨hno, _, _⟩ | ⟨p, d, hd, hw, hmin, hlen, hhead, hlast, hmem, hch, hout⟩
  · exact absurd (hwalk (nodes.length - 1) (by omega)) (hno _)
  · have hdle : d ≤ nodes.length - 1 := hmin _ (hwalk (nodes.length - 1) (by omega))
    have hch' : List.Chain' (fun x y => y = x + 1 ∨ (x = nodes.length - 1 ∧ y = 0)) p :=
      List.Chain'.imp (fun a b hab => honly a hab.1 b hab.2.1 hab) hch
    have hp := chain_is_range (nodes.length - 1) p 0 hch' hhead (by omega)
    rw [hlen] at hp
    have hdeq : d = nodes.length - 1 := by
      rw [hp, List.getLast?_range'] at hlast
      simp at hlast
      omega
    have hp' : p = List.range' 0 nodes.length := by
      rw [hp, hdeq, Nat.sub_add_cancel hpos]
    refine ⟨?_, ?_⟩
    · rw [hout, hp', names_of_range]
    · rw [hd, hdeq]
      congr 1
      omega

theorem C8_witness :
    ShortestPath ["A", "B", "C"] ["A-B", "B-C", "C-A"] = some (Output.path ["A", "B", "C"]) ∧
    sinkDist ["A", "B", "C"] ["A-B", "B-C", "C-A"] =
      some (((["A", "B", "C"] : List String).length : Int) - 1) :=
  C8_chain_or_cycle ["A", "B", "C"] ["A-B", "B-C", "C-A"]
    ⟨by decide, by decide, by decide, by decide⟩ (by decide) (by decide)

/-- C9: with a single node name and edge tokens that each have two names, the main
loop does not run, the printed path is that single node and `dist[0]` is `0`. -/
theorem C9_single_node (a : String) (edges : List String)
    (hwf : ∀ e ∈ edges, (parseEdge e).isSome = true) :
    ShortestPath [a] edges = some (Output.path [a]) ∧ sinkDist [a] edges = some 0 := by
  obtain ⟨g, hb, _, _⟩ := buildGraph_spec [a] edges hwf
  have hdij : dijkstra 1 g = initState := rfl
  have hrec : reconstruct initState.prev 1 0 = some [0] :=
    reconstruct_single initState.prev 0 0 rfl
  constructor
  · unfold ShortestPath
    simp only [List.length_singleton, hb, hdij]
    rw [if_neg (by decide)]
    simp only [Nat.cast_one, sub_self, hrec]
    rw [if_neg (by decide)]
    rfl
  · rw [sinkDist_eq [a] edges g hb]
    rfl

theorem C9_witness :
    ShortestPath ["A"] ["A-A", "A-X", "Y-Z"] = some (Output.path ["A"]) ∧
    sinkDist ["A"] ["A-A", "A-X", "Y-Z"] = some 0 :=
  C9_single_node "A" ["A-A", "A-X", "Y-Z"] (by decide)

/-! ## Dependence on the edge tokens -/

theorem buildGraph_none (nodes edges : List String)
    (hbad : ∃ e ∈ edges, parseEdge e = none) : buildGraph nodes edges = none :=
  foldlM_addEdge_none nodes edges hbad initGraph

/-- Two token lists with the same resolved edges, failing together, give the same
matrix. -/
theorem buildGraph_congr (nodes e1 e2 : List String)
    (hfail : (∃ e ∈ e1, parseEdge e = none) ↔ (∃ e ∈ e2, parseEdge e = none))
    (hedge : ∀ i j, HasEdge nodes e1 i j ↔ HasEdge nodes e2 i j) :
    buildGraph nodes e1 = buildGraph nodes e2 := by
  by_cases hbad : ∃ e ∈ e1, parseEdge e = none
  · rw [buildGraph_none nodes e1 hbad, buildGraph_none nodes e2 (hfail.mp hbad)]
  · have hwf : ∀ l : List String, (¬ ∃ e ∈ l, parseEdge e = none) →
        ∀ e ∈ l, (parseEdge e).isSome = true := by
      intro l hl e he
      cases hp : parseEdge e with
      | none => exact absurd ⟨e, he, hp⟩ hl
      | some _ => rfl
    obtain ⟨g1, hb1, h1, h1'⟩ := buildGraph_spec nodes e1 (hwf e1 hbad)
    obtain ⟨g2, hb2, h2, h2'⟩ := buildGraph_spec nodes e2 (hwf e2 (fun h => hbad (hfail.mpr h)))
    rw [hb1, hb2]
    congr 1
    funext i j
    by_cases hc : g1 i j = 1
    · rw [hc, ((h2 i j).mpr ((hedge i j).mp ((h1 i j).mp hc)))]
    · have hc2 : g2 i j ≠ 1 := fun h => hc ((h1 i j).mpr ((hedge i j).mpr ((h2 i j).mp h)))
      rcases h1' i j with h | h
      · exact absurd h hc
      · rcases h2' i j with h' | h'
        · exact absurd h' hc2
        · rw [h, h']

theorem ShortestPath_congr (nodes e1 e2 : List String)
    (h : buildGraph nodes e1 = buildGraph nodes e2) :
    ShortestPath nodes e1 = ShortestPath nodes e2 := by
  unfold ShortestPath
  rw [h]

theorem relaxStep_diag (g g' : Nat → Nat → Int) (u : Nat) (s : State) (v : Nat)
    (hg : ∀ w, w ≠ u → g u w = g' u w) (hu : s.visited u = true) :
    relaxStep g u s v = relaxStep g' u s v := by
  unfold relaxStep
  by_cases hvu : v = u
  · subst hvu
    rw [if_neg, if_neg]
    · rintro ⟨h, _⟩; rw [hu] at h; cases h
    · rintro ⟨h, _⟩; rw [hu] at h; cases h
  · rw [hg v hvu]

theorem relax_diag (N : Nat) (g g' : Nat → Nat → Int) (u : Nat) (s : State)
    (hg : ∀ w, w ≠ u → g u w = g' u w) (hu : s.visited u = true) :
    relax N g u s = relax N g' u s := by
  unfold relax
  induction N with
  | zero => rfl
  | succ n ih =>
    rw [List.range_succ, List.foldl_append, List.foldl_append, ih]
    simp only [List.foldl_cons, List.foldl_nil]
    apply relaxStep_diag g g' u _ n hg
    rw [(relaxFold_spec g' u s hu n).1]
    exact hu

/-- The main loop never reads a diagonal entry of the matrix to any effect. -/
theorem mainLoop_diag (N : Nat) (g g' : Nat → Nat → Int)
    (hg : ∀ u w, w ≠ u → g u w = g' u w) (count : Nat) (s : State) :
    mainLoop N g count s = mainLoop N g' count s := by
  induction count generalizing s with
  | zero => rfl
  | succ r ih =>
    have hit : iteration N g s = iteration N g' s := by
      unfold iteration
      simp only
      split
      · rfl
      · rw [relax_diag N g g' _ _ (hg _) (by simp [upd])]
    unfold mainLoop
    rw [hit]
    cases iteration N g' s with
    | none => rfl
    | some t => exact ih t

theorem HasEdge_cons (nodes edges : List String) (e a b : String)
    (hp : parseEdge e = some (a, b)) (i j : Nat) :
    HasEdge nodes (e :: edges) i j ↔
      (getIndex a nodes = (i : Int) ∧ getIndex b nodes = (j : Int)) ∨
        HasEdge nodes edges i j := by
  constructor
  · rintro ⟨x, hx, a', b', hp', ha, hb⟩
    rcases List.mem_cons.mp hx with h | h
    · subst h
      rw [hp] at hp'
      injection hp' with hp'
      injection hp' with h1 h2
      subst h1; subst h2
      exact Or.inl ⟨ha, hb⟩
    · exact Or.inr ⟨x, h, a', b', hp', ha, hb⟩
  · rintro (⟨ha, hb⟩ | ⟨x, hx, hrest⟩)
    · exact ⟨e, List.mem_cons_self e edges, a, b, hp, ha, hb⟩
    · exact ⟨x, List.mem_cons_of_mem e hx, hrest⟩

/-- A token naming the same node twice does not change what is printed. -/
theorem ShortestPath_self_loop (nodes edges : List String) (e x : String)
    (hp : parseEdge e = some (x, x)) :
    ShortestPath nodes (e :: edges) = ShortestPath nodes edges := by
  by_cases hbad : ∃ t ∈ edges, parseEdge t = none
  · apply ShortestPath_congr
    rw [buildGraph_none nodes edges hbad]
    apply buildGraph_none
    obtain ⟨t, ht, htp⟩ := hbad
    exact ⟨t, List.mem_cons_of_mem e ht, htp⟩
  · have hwf : ∀ t ∈ edges, (parseEdge t).isSome = true := by
      intro t ht
      cases htp : parseEdge t with
      | none => exact absurd ⟨t, ht, htp⟩ hbad
      | some _ => rfl
    have hwf' : ∀ t ∈ e :: edges, (parseEdge t).isSome = true := by
      intro t ht
      rcases List.mem_cons.mp ht with h | h
      · subst h; rw [hp]; rfl
      · exact hwf t h
    obtain ⟨g, hb, h1, h2⟩ := buildGraph_spec nodes edges hwf
    obtain ⟨g', hb', h1', h2'⟩ := buildGraph_spec nodes (e :: edges) hwf'
    have hoff : ∀ u w, w ≠ u → g' u w = g u w := by
      intro u w hwu
      have hiff : g' u w = 1 ↔ g u w = 1 := by
        rw [h1', h1, HasEdge_cons nodes edges e x x hp]
        constructor
        · rintro (⟨ha, hb⟩ | h)
          · omega
          · exact h
        · exact Or.inr
      rcases h2' u w with h | h
      · rw [h, hiff.mp h]
      · rcases h2 u w with h' | h'
        · rw [hiff.mpr h'] at h
          exact absurd h (by decide)
        · rw [h, h']
    have hd : dijkstra nodes.length g' = dijkstra nodes.length g :=
      mainLoop_diag nodes.length g' g hoff (nodes.length - 1) initState
    unfold ShortestPath
    simp only [hb, hb', hd]

/-! ## Claims about inputs and edge tokens -/

/-- The run ends with a printed result whenever there is at least one node, the node
count fits an `int`, and every token has two names: nothing is rejected. -/
theorem ShortestPath_total (nodes edges : List String) (hne : nodes ≠ [])
    (hfit : (nodes.length : Int) ≤ INT_MAX)
    (hwf : ∀ e ∈ edges, (parseEdge e).isSome = true) :
    (∃ names, ShortestPath nodes edges = some (Output.path names)) ∨
    ShortestPath nodes edges =
      some (Output.noPath (nodes.getD 0 "") (nodes.getD (nodes.length - 1) "")) := by
  obtain ⟨g, hb, _, h2⟩ := buildGraph_spec nodes edges hwf
  rcases ShortestPath_outcome nodes edges g hne hfit hb h2 with
    ⟨_, _, hout⟩ | ⟨p, d, _, _, _, _, _, _, _, _, hout⟩
  · exact Or.inr hout
  · exact Or.inl ⟨_, hout⟩

/-- C4 (as the code behaves): on the node list `A, A` without edges the run is not
rejected; it prints that no path was found from `A` to `A`. -/
theorem C4_counterexample :
    ShortestPath ["A", "A"] [] = some (Output.noPath "A" "A") := by
  decide

/-- C4 (amended): a node list with a repeated name is not rejected. `getIndex`
resolves every name to the first node carrying it, and the run prints a path or
the no-path message as for any other input. -/
theorem C4_duplicates_not_rejected (nodes edges : List String) (hdup : ¬ nodes.Nodup)
    (hfit : (nodes.length : Int) ≤ INT_MAX)
    (hwf : ∀ e ∈ edges, (parseEdge e).isSome = true) :
    ((∃ names, ShortestPath nodes edges = some (Output.path names)) ∨
      ShortestPath nodes edges =
        some (Output.noPath (nodes.getD 0 "") (nodes.getD (nodes.length - 1) ""))) ∧
    (∀ (name : String) (i : Nat), getIndex name nodes = (i : Int) →
      nodes.getD i "" = name ∧ ∀ j, j < i → nodes.getD j "" ≠ name) := by
  have hne : nodes ≠ [] := by
    intro h; subst h; exact hdup List.nodup_nil
  refine ⟨ShortestPath_total nodes edges hne hfit hwf, ?_⟩
  intro name i hi
  rcases getIndex_spec name nodes with ⟨h1, _⟩ | ⟨i', _, h1, h2, h3⟩
  · omega
  · have : i = i' := by omega
    subst this
    exact ⟨h2, h3⟩

theorem C4_witness :
    ((∃ names, ShortestPath ["A", "B", "A"] ["A-B", "B-A"] = some (Output.path names)) ∨
      ShortestPath ["A", "B", "A"] ["A-B", "B-A"] =
        some (Output.noPath (["A", "B", "A"].getD 0 "")
          (["A", "B", "A"].getD (["A", "B", "A"].length - 1) ""))) ∧
    (∀ (name : String) (i : Nat), getIndex name ["A", "B", "A"] = (i : Int) →
      ["A", "B", "A"].getD i "" = name ∧ ∀ j, j < i → ["A", "B", "A"].getD j "" ≠ name) :=
  C4_duplicates_not_rejected ["A", "B", "A"] ["A-B", "B-A"] (by decide) (by decide) (by decide)

/-- C5 (the code at the failing input): on nodes `A, B, C, D` with edges
`A-B, A-C, B-D, C-D`, after the first iteration `B` and `C` are both unvisited with
distance `1`; the selection of the second iteration returns index `2` (`C`), not
the lower index `1` (`B`), and the printed path is `A-C-D`, not `A-B-D`. -/
theorem C5_tie_selects_higher_index :
    (buildGraph ["A", "B", "C", "D"] ["A-B", "A-C", "B-D", "C-D"]).bind
      (fun graph => (iteration 4 graph initState).map
        (fun s => (s.visited 1, s.dist 1, s.visited 2, s.dist 2, (selectMin 4 s).2))) =
        some (false, 1, false, 1, 2) ∧
    ShortestPath ["A", "B", "C", "D"] ["A-B", "A-C", "B-D", "C-D"] =
      some (Output.path ["A", "C", "D"]) ∧
    ShortestPath ["A", "B", "C", "D"] ["A-B", "A-C", "B-D", "C-D"] ≠
      some (Output.path ["A", "B", "D"]) :=
  ⟨rfl, by decide, by decide⟩

theorem HasEdge_filter (nodes edges : List String) (i j : Nat) :
    HasEdge nodes (edges.filter (knownEdge nodes)) i j ↔ HasEdge nodes edges i j := by
  constructor
  · rintro ⟨e, he, hrest⟩
    exact ⟨e, (List.mem_filter.mp he).1, hrest⟩
  · rintro ⟨e, he, a, b, hp, ha, hb⟩
    refine ⟨e, List.mem_filter.mpr ⟨he, ?_⟩, a, b, hp, ha, hb⟩
    have h1 : a ∈ nodes := by
      by_contra h
      have := (getIndex_eq_neg_one_iff a nodes).mpr h
      omega
    have h2 : b ∈ nodes := by
      by_contra h
      have := (getIndex_eq_neg_one_iff b nodes).mpr h
      omega
    simp [knownEdge, hp, h1, h2]

/-- C6: edge tokens with a source or destination name that is no node name are
ignored: the result is the result on the token list without them, and on a
non-empty node list with tokens of two names each the run prints a path or the
no-path message. -/
theorem C6_unknown_names_ignored (nodes edges : List String) :
    ShortestPath nodes edges = ShortestPath nodes (edges.filter (knownEdge nodes)) ∧
    (nodes ≠ [] → (nodes.length : Int) ≤ INT_MAX →
      (∀ e ∈ edges, (parseEdge e).isSome = true) →
      ((∃ names, ShortestPath nodes edges = some (Output.path names)) ∨
        ShortestPath nodes edges =
          some (Output.noPath (nodes.getD 0 "") (nodes.getD (nodes.length - 1) "")))) := by
  refine ⟨?_, ShortestPath_total nodes edges⟩
  apply ShortestPath_congr
  apply buildGraph_congr
  · constructor
    · rintro ⟨e, he, hp⟩
      exact ⟨e, List.mem_filter.mpr ⟨he, by simp [knownEdge, hp]⟩, hp⟩
    · rintro ⟨e, he, hp⟩
      exact ⟨e, (List.mem_filter.mp he).1, hp⟩
  · intro i j
    exact (HasEdge_filter nodes edges i j).symm

theorem C6_witness :
    ShortestPath ["A", "B", "C"] ["A-B", "X-C", "B-Y", "B-C"] =
      ShortestPath ["A", "B", "C"]
        (["A-B", "X-C", "B-Y", "B-C"].filter (knownEdge ["A", "B", "C"])) ∧
    ((∃ names, ShortestPath ["A", "B", "C"] ["A-B", "X-C", "B-Y", "B-C"] =
        some (Output.path names)) ∨
      ShortestPath ["A", "B", "C"] ["A-B", "X-C", "B-Y", "B-C"] =
        some (Output.noPath (["A", "B", "C"].getD 0 "")
          (["A", "B", "C"].getD (["A", "B", "C"].length - 1) ""))) :=
  ⟨(C6_unknown_names_ignored ["A", "B", "C"] ["A-B", "X-C", "B-Y", "B-C"]).1,
    (C6_unknown_names_ignored ["A", "B", "C"] ["A-B", "X-C", "B-Y", "B-C"]).2
      (by decide) (by decide) (by decide)⟩

/-- C10: the matrix and the printed result depend only on which tokens occur, not on
how often or in which order; every entry of the matrix is `1` or `INT_MAX`; and a
token naming the same node twice leaves the printed result unchanged. -/
theorem C10_edge_set_only (nodes edges1 edges2 : List String) (e x : String)
    (hset : ∀ t, t ∈ edges1 ↔ t ∈ edges2) (hloop : parseEdge e = some (x, x)) :
    buildGraph nodes edges1 = buildGraph nodes edges2 ∧
    ShortestPath nodes edges1 = ShortestPath nodes edges2 ∧
    (∀ g, buildGraph nodes edges1 = some g → ∀ i j, g i j = 1 ∨ g i j = INT_MAX) ∧
    ShortestPath nodes (e :: edges1) = ShortestPath nodes edges1 := by
  have hb : buildGraph nodes edges1 = buildGraph nodes edges2 := by
    apply buildGraph_congr
    · constructor
      · rintro ⟨t, ht, hp⟩; exact ⟨t, (hset t).mp ht, hp⟩
      · rintro ⟨t, ht, hp⟩; exact ⟨t, (hset t).mpr ht, hp⟩
    · intro i j
      constructor
      · rintro ⟨t, ht, hrest⟩; exact ⟨t, (hset t).mp ht, hrest⟩
      · rintro ⟨t, ht, hrest⟩; exact ⟨t, (hset t).mpr ht, hrest⟩
  refine ⟨hb, ShortestPath_congr nodes edges1 edges2 hb, ?_,
    ShortestPath_self_loop nodes edges1 e x hloop⟩
  intro g hg i j
  by_cases hbad : ∃ t ∈ edges1, parseEdge t = none
  · rw [buildGraph_none nodes edges1 hbad] at hg
    cases hg
  · have hwf : ∀ t ∈ edges1, (parseEdge t).isSome = true := by
      intro t ht
      cases htp : parseEdge t with
      | none => exact absurd ⟨t, ht, htp⟩ hbad
      | some _ => rfl
    obtain ⟨g', hg', _, h2⟩ := buildGraph_spec nodes edges1 hwf
    rw [hg'] at hg
    injection hg with hg
    subst hg
    exact h2 i j

theorem C10_witness :
    buildGraph ["A", "B", "C"] ["A-B", "B-C"] = buildGraph ["A", "B", "C"] ["B-C", "A-B", "A-B"] ∧
    ShortestPath ["A", "B", "C"] ["A-B", "B-C"] =
      ShortestPath ["A", "B", "C"] ["B-C", "A-B", "A-B"] ∧
    (∀ g, buildGraph ["A", "B", "C"] ["A-B", "B-C"] = some g →
      ∀ i j, g i j = 1 ∨ g i j = INT_MAX) ∧
    ShortestPath ["A", "B", "C"] ("B-B" :: ["A-B", "B-C"]) =
      ShortestPath ["A", "B", "C"] ["A-B", "B-C"] :=
  C10_edge_set_only ["A", "B", "C"] ["A-B", "B-C"] ["B-C", "A-B", "A-B"] "B-B" "B"
    (by intro t; simp only [List.mem_cons, List.mem_singleton, List.not_mem_nil]; tauto)
    (by decide)

end ShortestPathC

namespace ControlRegisterC

/-! ## The register encoding -/

set_option maxRecDepth 100000 in
set_option synthInstance.maxSize 2048 in
set_option synthInstance.maxHeartbeats 200000 in
/-- Every well-formed combination of field values, by enumeration. -/
theorem encodeRegister_table :
    ∀ p, p < 2 → ∀ a, a < 2 → ∀ m, m < 8 → ∀ r, r < 8 →
      encodeRegister (ControlRegister_t.mk r m a p) = p * 128 + a * 64 + m * 8 + r ∧
      (encodeRegister (ControlRegister_t.mk r m a p) >>> 7) &&& 1 = p ∧
      (encodeRegister (ControlRegister_t.mk r m a p) >>> 6) &&& 1 = a ∧
      (encodeRegister (ControlRegister_t.mk r m a p) >>> 3) &&& 7 = m ∧
      encodeRegister (ControlRegister_t.mk r m a p) &&& 7 = r := by
  decide

theorem encodeRegister_fields (reg : ControlRegister_t) (h : WellFormed reg) :
    encodeRegister reg = reg.POWER * 128 + reg.ALARM * 64 + reg.MODE * 8 + reg.RESERVED ∧
    (encodeRegister reg >>> 7) &&& 1 = reg.POWER ∧
    (encodeRegister reg >>> 6) &&& 1 = reg.ALARM ∧
    (encodeRegister reg >>> 3) &&& 7 = reg.MODE ∧
    encodeRegister reg &&& 7 = reg.RESERVED := by
  obtain ⟨r, m, a, p⟩ := reg
  obtain ⟨hr, hm, ha, hp⟩ := h
  exact encodeRegister_table p hp a ha m hm r hr

/-- C11: for every well-formed register value, `encodeRegister` returns
`POWER*128 + ALARM*64 + MODE*8 + RESERVED`, a value below 256; each field is read
back from the result by a shift and a mask at its documented position, and two
well-formed registers with the same encoding are equal. -/
theorem C11_encodeRegister_layout (reg : ControlRegister_t) (h : WellFormed reg) :
    encodeRegister reg = reg.POWER * 128 + reg.ALARM * 64 + reg.MODE * 8 + reg.RESERVED ∧
    encodeRegister reg < 256 ∧
    (encodeRegister reg >>> 7) &&& 1 = reg.POWER ∧
    (encodeRegister reg >>> 6) &&& 1 = reg.ALARM ∧
    (encodeRegister reg >>> 3) &&& 7 = reg.MODE ∧
    encodeRegister reg &&& 7 = reg.RESERVED ∧
    ∀ reg2, WellFormed reg2 → encodeRegister reg2 = encodeRegister reg → reg2 = reg := by
  obtain ⟨h1, h2, h3, h4, h5⟩ := encodeRegister_fields reg h
  refine ⟨h1, ?_, h2, h3, h4, h5, ?_⟩
  · unfold encodeRegister
    exact Nat.mod_lt _ (by decide)
  · intro reg2 hw heq
    obtain ⟨_, k2, k3, k4, k5⟩ := encodeRegister_fields reg2 hw
    rw [heq] at k2 k3 k4 k5
    obtain ⟨r, m, a, p⟩ := reg
    obtain ⟨r2, m2, a2, p2⟩ := reg2
    simp only at h2 h3 h4 h5 k2 k3 k4 k5
    rw [← k2, ← k3, ← k4, ← k5, h2, h3, h4, h5]

theorem C11_witness :
    encodeRegister (ControlRegister_t.mk 4 3 0 1) =
      (ControlRegister_t.mk 4 3 0 1).POWER * 128 + (ControlRegister_t.mk 4 3 0 1).ALARM * 64 +
        (ControlRegister_t.mk 4 3 0 1).MODE * 8 + (ControlRegister_t.mk 4 3 0 1).RESERVED ∧
    encodeRegister (ControlRegister_t.mk 4 3 0 1) < 256 ∧
    (encodeRegister (ControlRegister_t.mk 4 3 0 1) >>> 7) &&& 1 =
      (ControlRegister_t.mk 4 3 0 1).POWER ∧
    (encodeRegister (ControlRegister_t.mk 4 3 0 1) >>> 6) &&& 1 =
      (ControlRegister_t.mk 4 3 0 1).ALARM ∧
    (encodeRegister (ControlRegister_t.mk 4 3 0 1) >>> 3) &&& 7 =
      (ControlRegister_t.mk 4 3 0 1).MODE ∧
    encodeRegister (ControlRegister_t.mk 4 3 0 1) &&& 7 =
      (ControlRegister_t.mk 4 3 0 1).RESERVED ∧
    ∀ reg2, WellFormed reg2 →
      encodeRegister reg2 = encodeRegister (ControlRegister_t.mk 4 3 0 1) →
      reg2 = ControlRegister_t.mk 4 3 0 1 :=
  C11_encodeRegister_layout (ControlRegister_t.mk 4 3 0 1) (by decide)

/-! ## The event log -/

theorem truncate63_ne_empty (msg : String) (h : msg ≠ "") : truncate63 msg ≠ "" := by
  unfold truncate63
  intro hc
  apply h
  have hd : (List.take 63 msg.toList) = [] := by
    have := congrArg String.data hc
    simpa using this
  cases hm : msg.toList with
  | nil =>
    apply String.ext
    simpa using hm
  | cons c cs =>
    rw [hm] at hd
    simp at hd

/-- The globals after `logEvent` was called with each message of `msgs` in turn:
the head has advanced by one per call, each of the last ten messages sits in the slot
of its number modulo ten, and no slot from `msgs.length` on has been written. -/
theorem logEvent_fold_spec (msgs : List String) :
    (msgs.foldl logEvent emptyLog).eventHead = msgs.length % 10 ∧
    (∀ k, k < msgs.length → msgs.length ≤ k + 10 →
      (msgs.foldl logEvent emptyLog).eventBuffer (k % 10) = truncate63 (msgs.getD k "")) ∧
    (∀ i, msgs.length ≤ i → (msgs.foldl logEvent emptyLog).eventBuffer i = "") := by
  induction msgs using List.reverseRecOn with
  | nil =>
    refine ⟨rfl, ?_, fun _ _ => rfl⟩
    intro k hk
    exact absurd hk (Nat.not_lt_zero k)
  | append_singleton l m ih =>
    obtain ⟨ih1, ih2, ih3⟩ := ih
    rw [List.foldl_concat]
    generalize l.foldl logEvent emptyLog = s at ih1 ih2 ih3 ⊢
    simp only [logEvent, writeSlot, EVENT_BUFFER_SIZE, List.length_append,
      List.length_singleton]
    refine ⟨by omega, ?_, ?_⟩
    · intro k hk hwin
      by_cases hkl : k = l.length
      · subst hkl
        rw [if_pos (by omega), List.getD_append_right _ _ _ _ (le_refl _)]
        simp
      · have hk' : k < l.length := by omega
        rw [if_neg (by omega), List.getD_append _ _ _ _ hk']
        exact ih2 k hk' (by omega)
    · intro i hi
      rw [if_neg (by omega)]
      exact ih3 i (by omega)

/-- What `snprintf(dst, 64, ..)` keeps of a text: its first 63 characters. -/
theorem truncate63_toList (msg : String) :
    (truncate63 msg).toList = msg.toList.take 63 := rfl

theorem truncate63_length (msg : String) : (truncate63 msg).length ≤ 63 := by
  show (msg.toList.take 63).length ≤ 63
  rw [List.length_take]
  exact Nat.min_le_left _ _

/-- C12: starting from the empty buffer, after `logEvent` was called with the
non-empty messages `msgs` in turn, `eventHead` is `msgs.length % 10` (below 10); for
each of the last ten calls `k` the slot `k % 10` holds the `k`-th message cut to 63
characters, that is its first 63 characters and no more, which is not empty; and
every other slot is empty. -/
theorem C12_event_log_keeps_last_ten (msgs : List String) (hne : ∀ m ∈ msgs, m ≠ "") :
    (msgs.foldl logEvent emptyLog).eventHead = msgs.length % 10 ∧
    (msgs.foldl logEvent emptyLog).eventHead < 10 ∧
    (∀ k, msgs.length - 10 ≤ k → k < msgs.length →
      (msgs.foldl logEvent emptyLog).eventBuffer (k % 10) = truncate63 (msgs.getD k "") ∧
      ((msgs.foldl logEvent emptyLog).eventBuffer (k % 10)).toList =
        (msgs.getD k "").toList.take 63 ∧
      ((msgs.foldl logEvent emptyLog).eventBuffer (k % 10)).length =
        min 63 (msgs.getD k "").length ∧
      (msgs.foldl logEvent emptyLog).eventBuffer (k % 10) ≠ "") ∧
    (∀ i, i < 10 → (∀ k, msgs.length - 10 ≤ k → k < msgs.length → k % 10 ≠ i) →
      (msgs.foldl logEvent emptyLog).eventBuffer i = "") := by
  obtain ⟨h1, h2, h3⟩ := logEvent_fold_spec msgs
  refine ⟨h1, by omega, ?_, ?_⟩
  · intro k hlo hk
    have hslot := h2 k hk (by omega)
    refine ⟨hslot, ?_, ?_, ?_⟩
    · rw [hslot]
      exact truncate63_toList _
    · rw [hslot]
      show ((msgs.getD k "").toList.take 63).length = min 63 (msgs.getD k "").length
      rw [List.length_take]
      rfl
    · rw [hslot]
      apply truncate63_ne_empty
      apply hne
      rw [List.getD_eq_getElem msgs "" hk]
      exact List.getElem_mem hk
  · intro i hi hfree
    apply h3
    by_contra hlt
    by_cases hsmall : msgs.length ≤ 10
    · exact hfree i (by omega) (by omega) (Nat.mod_eq_of_lt hi)
    · exact hfree (msgs.length - 10 + (i + 10 - (msgs.length - 10) % 10) % 10)
        (by omega) (by omega) (by omega)

theorem C12_witness :
    ((["a", "b", "c", "d", "e", "f", "g", "h", "i", "j", "k",
        "0123456789012345678901234567890123456789012345678901234567890123456789"].foldl logEvent
        emptyLog).eventBuffer (11 % 10) =
        truncate63
          (["a", "b", "c", "d", "e", "f", "g", "h", "i", "j", "k",
        "0123456789012345678901234567890123456789012345678901234567890123456789"].getD 11 "") ∧
      ((["a", "b", "c", "d", "e", "f", "g", "h", "i", "j", "k",
        "0123456789012345678901234567890123456789012345678901234567890123456789"].foldl logEvent
        emptyLog).eventBuffer (11 % 10)).toList =
        (["a", "b", "c", "d", "e", "f", "g", "h", "i", "j", "k",
        "0123456789012345678901234567890123456789012345678901234567890123456789"].getD 11 "").toList.take 63 ∧
      ((["a", "b", "c", "d", "e", "f", "g", "h", "i", "j", "k",
        "0123456789012345678901234567890123456789012345678901234567890123456789"].foldl logEvent
        emptyLog).eventBuffer (11 % 10)).length =
        min 63
          (["a", "b", "c", "d", "e", "f", "g", "h", "i", "j", "k",
        "0123456789012345678901234567890123456789012345678901234567890123456789"].getD 11 "").length ∧
      (["a", "b", "c", "d", "e", "f", "g", "h", "i", "j", "k",
        "0123456789012345678901234567890123456789012345678901234567890123456789"].foldl logEvent
        emptyLog).eventBuffer (11 % 10) ≠ "") ∧
    (["a", "b", "c", "d", "e", "f", "g", "h", "i", "j", "k",
        "0123456789012345678901234567890123456789012345678901234567890123456789"].foldl logEvent
        emptyLog).eventBuffer 1 =
      "012345678901234567890123456789012345678901234567890123456789012" ∧
    (["a", "b", "c", "d", "e", "f", "g", "h", "i", "j", "k",
        "0123456789012345678901234567890123456789012345678901234567890123456789"].foldl logEvent
        emptyLog).eventHead = 2 :=
  ⟨(C12_event_log_keeps_last_ten
      ["a", "b", "c", "d", "e", "f", "g", "h", "i", "j", "k",
        "0123456789012345678901234567890123456789012345678901234567890123456789"]
      (by decide)).2.2.1 11 (by decide) (by decide),
    by decide, by decide⟩

end ControlRegisterC

namespace ShortestPathC

/-! ## Claims about the iterations of the main loop -/

/-- The rest of the main loop never changes the entries of a visited node. -/
theorem mainLoop_frame (N : Nat) (graph : Nat → Nat → Int) (count : Nat) (s : State)
    (v : Nat) (hv : s.visited v = true) :
    (mainLoop N graph count s).visited v = true ∧
    (mainLoop N graph count s).dist v = s.dist v ∧
    (mainLoop N graph count s).prev v = s.prev v := by
  induction count generalizing s with
  | zero => exact ⟨hv, rfl, rfl⟩
  | succ r ih =>
    unfold mainLoop
    cases h : iteration N graph s with
    | none => exact ⟨hv, rfl, rfl⟩
    | some t =>
      obtain ⟨h1, h2, h3⟩ := iteration_frame N graph s t h v hv
      obtain ⟨k1, k2, k3⟩ := ih t h1
      exact ⟨k1, by rw [k2, h2], by rw [k3, h3]⟩

/-- C13: an iteration of the main loop leaves `dist[v]` and `prev[v]` of every node
that was visited before it unchanged, and so does the rest of the loop: the
entries of a visited node never change again. -/
theorem C13_visited_entries_never_change (N : Nat) (graph : Nat → Nat → Int)
    (s t : State) (v : Nat) (hit : iteration N graph s = some t)
    (hv : s.visited v = true) :
    t.dist v = s.dist v ∧ t.prev v = s.prev v ∧ t.visited v = true ∧
    ∀ count, (mainLoop N graph count t).dist v = s.dist v ∧
      (mainLoop N graph count t).prev v = s.prev v := by
  obtain ⟨h1, h2, h3⟩ := iteration_frame N graph s t hit v hv
  refine ⟨h2, h3, h1, fun count => ?_⟩
  obtain ⟨_, k2, k3⟩ := mainLoop_frame N graph count t v h1
  exact ⟨by rw [k2, h2], by rw [k3, h3]⟩

theorem C13_witness :
    (relax 3 (fun i j => if i + 1 = j then 1 else INT_MAX) 1
      { (State.mk (fun v => if v = 0 then 0 else if v = 1 then 1 else INT_MAX)
          (fun v => decide (v = 0)) (fun v => if v = 1 then 0 else -1)) with
        visited := upd (fun v => decide (v = 0)) 1 true }).dist 0 =
      (State.mk (fun v => if v = 0 then 0 else if v = 1 then 1 else INT_MAX)
        (fun v => decide (v = 0)) (fun v => if v = 1 then 0 else -1)).dist 0 ∧
    (relax 3 (fun i j => if i + 1 = j then 1 else INT_MAX) 1
      { (State.mk (fun v => if v = 0 then 0 else if v = 1 then 1 else INT_MAX)
          (fun v => decide (v = 0)) (fun v => if v = 1 then 0 else -1)) with
        visited := upd (fun v => decide (v = 0)) 1 true }).prev 0 =
      (State.mk (fun v => if v = 0 then 0 else if v = 1 then 1 else INT_MAX)
        (fun v => decide (v = 0)) (fun v => if v = 1 then 0 else -1)).prev 0 :=
  ⟨(C13_visited_entries_never_change 3 (fun i j => if i + 1 = j then 1 else INT_MAX)
      (State.mk (fun v => if v = 0 then 0 else if v = 1 then 1 else INT_MAX)
        (fun v => decide (v = 0)) (fun v => if v = 1 then 0 else -1)) _ 0 rfl rfl).1,
    (C13_visited_entries_never_change 3 (fun i j => if i + 1 = j then 1 else INT_MAX)
      (State.mk (fun v => if v = 0 then 0 else if v = 1 then 1 else INT_MAX)
        (fun v => decide (v = 0)) (fun v => if v = 1 then 0 else -1)) _ 0 rfl rfl).2.1⟩

/-- C14 (the code at the failing input): on nodes `A, B, C` with the single edge `C-B`,
after the first iteration node `A` is visited and the unvisited nodes `B` and `C`
both have distance `INT_MAX`, yet the selection of the second iteration returns
index `2` instead of `-1`; the loop
goes on, marks `C` visited and relaxes the edge to `B`, whose distance becomes
`-2147483648`. -/
theorem C14_selects_node_of_infinite_distance :
    (buildGraph ["A", "B", "C"] ["C-B"]).bind (fun graph =>
      (iteration 3 graph initState).bind (fun s =>
        (iteration 3 graph s).map (fun t =>
          (s.visited 0, s.visited 1, s.dist 1, s.visited 2, s.dist 2,
            (selectMin 3 s).2, t.visited 2, t.dist 1)))) =
      some (true, false, 2147483647, false, 2147483647, 2, true, -2147483648) := by
  rfl

/-- C17 (the code at the failing input): on nodes `A, B, C` with the single edge `C-B`,
the second iteration selects index `2` whose distance is `INT_MAX`; the sum
`dist[2] + graph[2][1]` is `2147483648`, above `INT_MAX`, and the wrapped value
`-2147483648` is what `dist[1]` holds when the main loop is left. -/
theorem C17_relaxation_overflows :
    (buildGraph ["A", "B", "C"] ["C-B"]).bind (fun graph =>
      (iteration 3 graph initState).map (fun s =>
        ((selectMin 3 s).2, s.dist 2, s.dist 2 + graph 2 1,
          wrap32 (s.dist 2 + graph 2 1), (dijkstra 3 graph).dist 1))) =
      some (2, 2147483647, 2147483648, -2147483648, -2147483648) := by
  decide

/-! ## Claims about the reconstructed path -/

/-- A list along which `dist` grows by one at each step has no repeated element. -/
theorem nodup_of_dist_chain (dist : Nat → Int) (E : Nat → Nat → Prop) (p : List Nat)
    (h : List.Chain' (fun a b => E a b ∧ dist b = dist a + 1) p) : p.Nodup := by
  have h1 : List.Chain' (fun a b => dist a < dist b) p :=
    List.Chain'.imp (fun a b hab => by have := hab.2; omega) h
  have h2 : List.Chain' (fun x y : Int => x < y) (p.map dist) :=
    (List.chain'_map dist).mpr h1
  have h3 : List.Pairwise (fun x y : Int => x < y) (p.map dist) :=
    List.chain'_iff_pairwise.mp h2
  have h4 : (p.map dist).Nodup := List.Pairwise.imp (fun hab => ne_of_lt hab) h3
  exact List.Nodup.of_map dist h4

/-- The cells of `path` written by the reconstruction loop at the end of
`ShortestPath`: the loop stops with between one and `N` cells written, each
holding a node index, none of them twice. -/
theorem reconstruct_sink (N : Nat) (graph : Nat → Nat → Int)
    (hN : 0 < N) (hNmax : (N : Int) ≤ INT_MAX)
    (hg : ∀ a b, graph a b = 1 ∨ graph a b = INT_MAX) :
    ∃ p : List Nat,
      reconstruct (dijkstra N graph).prev N ((N : Int) - 1) = some (p.map Int.ofNat) ∧
      p ≠ [] ∧ p.length ≤ N ∧ (∀ x ∈ p, x < N) ∧ p.Nodup := by
  obtain ⟨C, hF⟩ := dijkstra_Final N graph hN hNmax hg
  have hcast : ((N : Int) - 1) = ((N - 1 : Nat) : Int) := by omega
  by_cases hC : C (N - 1)
  · obtain ⟨_, hb2, hb3⟩ := hF.bound _ hC
    obtain ⟨p, hp1, hp2, _, _, hp5, hp6⟩ :=
      reconstruct_chain N graph C _ hF _ (N - 1) N hC rfl (by omega)
    refine ⟨p, by rw [hcast]; exact hp1, ?_, by omega, fun x hx => (hF.bound x (hp5 x hx)).1,
      ?_⟩
    · intro h; rw [h] at hp2; simp at hp2
    · have hrev : List.Chain' (fun a b => Adj N graph a b ∧
          (dijkstra N graph).dist b = (dijkstra N graph).dist a + 1) p.reverse := by
        rw [List.chain'_reverse]; exact hp6
      exact List.nodup_reverse.mp (nodup_of_dist_chain _ _ _ hrev)
  · obtain ⟨_, hprev, _⟩ := hF.sinkOut hC
    refine ⟨[N - 1], ?_, by simp, by simp; omega, ?_, List.nodup_singleton _⟩
    · have h := reconstruct_single (dijkstra N graph).prev (N - 1) (N - 1) hprev
      rw [Nat.sub_add_cancel hN] at h
      rw [hcast]; exact h
    · intro x hx
      simp only [List.mem_singleton] at hx
      omega

/-- The printed path of a valid input with a reachable sink, as a list of node indices
without repetition along which every step is an entry `1` of the matrix and an
edge named by a token. -/
theorem ShortestPath_valid_path (nodes edges : List String) (hv : ValidInput nodes edges)
    (hreach : ∃ k, Walk (IsEdge nodes edges) 0 (nodes.length - 1) k) :
    ∃ (graph : Nat → Nat → Int) (p : List Nat),
      buildGraph nodes edges = some graph ∧
      ShortestPath nodes edges = some (Output.path (p.map (fun i => nodes.getD i ""))) ∧
      p.Nodup ∧ (∀ x ∈ p, x < nodes.length) ∧
      List.Chain' (fun a b => (a < nodes.length ∧ b < nodes.length) ∧ graph a b = 1 ∧
        IsEdge nodes edges a b) p := by
  obtain ⟨g, hb, h1, h2⟩ := buildGraph_spec nodes edges hv.tokens
  have hadj := Adj_iff_IsEdge nodes edges g hv.distinct h1 h2
  obtain ⟨k, hk⟩ := hreach
  rcases ShortestPath_outcome nodes edges g hv.nonempty hv.fits hb h2 with
    ⟨_, hno, _⟩ | ⟨p, d, _, _, _, _, _, _, hmem, hchain, hout⟩
  · exact absurd (Walk_mono _ _ (fun a b => (hadj a b).mpr) 0 _ k hk) (hno k)
  · refine ⟨g, p, hb, hout, nodup_of_dist_chain _ _ p hchain, hmem, ?_⟩
    refine List.Chain'.imp ?_ hchain
    intro a b hab
    refine ⟨⟨hab.1.1, hab.1.2.1⟩, ?_, (hadj a b).mp hab.1⟩
    rcases h2 a b with h | h
    · exact h
    · exact absurd h hab.1.2.2

/-- C15: for valid input with a reachable sink, the printed path is a real path of
the graph: every two consecutive names are the two names of some edge token,
the matrix holds `1` at the pair of their indices, and no name occurs twice. -/
theorem C15_output_is_a_simple_path (nodes edges : List String)
    (hv : ValidInput nodes edges)
    (hreach : ∃ k, Walk (IsEdge nodes edges) 0 (nodes.length - 1) k) :
    ∃ (graph : Nat → Nat → Int) (names : List String),
      buildGraph nodes edges = some graph ∧
      ShortestPath nodes edges = some (Output.path names) ∧
      names.Nodup ∧
      List.Chain' (fun a b => ∃ e ∈ edges, parseEdge e = some (a, b)) names ∧
      List.Chain' (fun a b => graph (getIndex a nodes).toNat (getIndex b nodes).toNat = 1)
        names := by
  obtain ⟨g, p, hb, hout, hnd, hmem, hchain⟩ := ShortestPath_valid_path nodes edges hv hreach
  refine ⟨g, _, hb, hout, ?_, ?_, ?_⟩
  · refine List.Nodup.map_on ?_ hnd
    intro x hx y hy hxy
    have hx' := hmem x hx
    have hy' := hmem y hy
    rw [List.getD_eq_getElem nodes "" hx', List.getD_eq_getElem nodes "" hy'] at hxy
    exact (hv.distinct.getElem_inj_iff).mp hxy
  · rw [List.chain'_map]
    exact List.Chain'.imp (fun a b hab => hab.2.2.2.2) hchain
  · rw [List.chain'_map]
    refine List.Chain'.imp ?_ hchain
    intro a b hab
    rw [getIndex_getD nodes hv.distinct a hab.1.1, getIndex_getD nodes hv.distinct b hab.1.2]
    simpa using hab.2.1

theorem C15_witness :
    ∃ (graph : Nat → Nat → Int) (names : List String),
      buildGraph ["A", "B", "C", "D"] ["A-B", "A-C", "B-D", "C-D", "D-A"] = some graph ∧
      ShortestPath ["A", "B", "C", "D"] ["A-B", "A-C", "B-D", "C-D", "D-A"] =
        some (Output.path names) ∧
      names.Nodup ∧
      List.Chain' (fun a b => ∃ e ∈ ["A-B", "A-C", "B-D", "C-D", "D-A"],
        parseEdge e = some (a, b)) names ∧
      List.Chain' (fun a b => graph (getIndex a ["A", "B", "C", "D"]).toNat
        (getIndex b ["A", "B", "C", "D"]).toNat = 1) names :=
  C15_output_is_a_simple_path ["A", "B", "C", "D"] ["A-B", "A-C", "B-D", "C-D", "D-A"]
    ⟨by decide, by decide, by decide, by decide⟩
    ⟨2, Walk.snoc (Walk.snoc Walk.nil
      (show IsEdge ["A", "B", "C", "D"] ["A-B", "A-C", "B-D", "C-D", "D-A"] 0 1 by decide))
      (by decide)⟩

/-- C16: for every input with at least one node (node count within `int`, tokens with
two names each), the reconstruction loop stops inside its buffer: it returns with
`len` between `1` and `N`, every stored index lies in `0 .. N-1`, and no index is
stored twice, so the predecessor chain from the sink has no cycle. -/
theorem C16_reconstruction_stays_in_bounds (nodes edges : List String)
    (hne : nodes ≠ []) (hfit : (nodes.length : Int) ≤ INT_MAX)
    (hwf : ∀ e ∈ edges, (parseEdge e).isSome = true) :
    ∃ (graph : Nat → Nat → Int) (path : List Int),
      buildGraph nodes edges = some graph ∧
      reconstruct (dijkstra nodes.length graph).prev nodes.length
        ((nodes.length : Int) - 1) = some path ∧
      1 ≤ path.length ∧ path.length ≤ nodes.length ∧
      (∀ a ∈ path, 0 ≤ a ∧ a < (nodes.length : Int)) ∧ path.Nodup := by
  obtain ⟨g, hb, _, h2⟩ := buildGraph_spec nodes edges hwf
  obtain ⟨p, hp1, hp2, hp3, hp4, hp5⟩ :=
    reconstruct_sink nodes.length g (List.length_pos.mpr hne) hfit h2
  refine ⟨g, p.map Int.ofNat, hb, hp1, ?_, by simpa using hp3, ?_, ?_⟩
  · rw [List.length_map]
    exact List.length_pos.mpr hp2
  · intro a ha
    obtain ⟨x, hx, rfl⟩ := List.mem_map.mp ha
    have := hp4 x hx
    constructor
    · exact Int.ofNat_nonneg x
    · exact Int.ofNat_lt.mpr this
  · exact List.Nodup.map (fun a b hab => Int.ofNat.inj hab) hp5

theorem C16_witness :
    ∃ (graph : Nat → Nat → Int) (path : List Int),
      buildGraph ["A", "B", "C"] ["A-B", "B-A", "C-B"] = some graph ∧
      reconstruct (dijkstra ["A", "B", "C"].length graph).prev ["A", "B", "C"].length
        (((["A", "B", "C"] : List String).length : Int) - 1) = some path ∧
      1 ≤ path.length ∧ path.length ≤ ["A", "B", "C"].length ∧
      (∀ a ∈ path, 0 ≤ a ∧ a < ((["A", "B", "C"] : List String).length : Int)) ∧
      path.Nodup :=
  C16_reconstruction_stays_in_bounds ["A", "B", "C"] ["A-B", "B-A", "C-B"]
    (by decide) (by decide) (by decide)

end ShortestPathC

namespace ControlRegisterC

/-! ## Validation of numeric fields -/

/-- What one call of `logEvent` does to the globals: the message, cut to 63
characters, is in the slot the head pointed at, the head has moved on by one
modulo ten, and the other slots are as before. -/
theorem logEvent_spec (log : EventLog) (msg : String) :
    (logEvent log msg).eventBuffer log.eventHead = truncate63 msg ∧
    (logEvent log msg).eventHead = (log.eventHead + 1) % 10 ∧
    ∀ i, i ≠ log.eventHead → (logEvent log msg).eventBuffer i = log.eventBuffer i := by
  refine ⟨by simp [logEvent, writeSlot], rfl, ?_⟩
  intro i hi
  simp [logEvent, writeSlot, hi]

theorem truncate63_twice (msg : String) : truncate63 (truncate63 msg) = truncate63 msg := by
  unfold truncate63
  simp [List.take_take]

/-- The range test of `applyCommand` on the `int` that `atoi` returns for the value:
outside `0..7` the register is returned unchanged and the message naming the
invalid value is stored in the slot the head pointed at; inside `0..7` exactly the
addressed field takes that value. -/
theorem applyCommand_numeric (reg : ControlRegister_t) (log : EventLog) (value : String) :
    (¬ (0 ≤ atoi value ∧ atoi value ≤ 7) →
      (applyCommand reg CommandType.CMD_MODE value log).1 = reg ∧
      (applyCommand reg CommandType.CMD_MODE value log).2.eventBuffer log.eventHead =
        truncate63 ("Invalid MODE value: " ++ toString (atoi value)) ∧
      (applyCommand reg CommandType.CMD_RESERVED value log).1 = reg ∧
      (applyCommand reg CommandType.CMD_RESERVED value log).2.eventBuffer log.eventHead =
        truncate63 ("Invalid RESERVED value: " ++ toString (atoi value))) ∧
    ((0 ≤ atoi value ∧ atoi value ≤ 7) →
      (applyCommand reg CommandType.CMD_MODE value log).1 =
        ControlRegister_t.mk reg.RESERVED (atoi value).toNat reg.ALARM reg.POWER ∧
      (applyCommand reg CommandType.CMD_RESERVED value log).1 =
        ControlRegister_t.mk (atoi value).toNat reg.MODE reg.ALARM reg.POWER) := by
  constructor
  · intro hout
    simp only [applyCommand]
    rw [if_neg hout, if_neg hout]
    refine ⟨rfl, ?_, rfl, ?_⟩
    · rw [(logEvent_spec log _).1, truncate63_twice]
    · rw [(logEvent_spec log _).1, truncate63_twice]
  · intro hin
    have hmod : (atoi value).toNat % 8 = (atoi value).toNat := by omega
    simp only [applyCommand]
    rw [if_pos hin, if_pos hin, hmod]
    exact ⟨rfl, rfl⟩

/-- C18 (the code at the failing input): the value `4294967301` is a number outside
`0..7`, but `atoi` returns `5` for it; `CMD_MODE` then sets `MODE` to `5` and logs
`MODE set to 5`, and `CMD_RESERVED` sets `RESERVED` to `5` and logs
`RESERVED bits set to 5`, instead of leaving the register unchanged and logging the
invalid value. -/
theorem C18_out_of_range_value_accepted :
    strtol "4294967301" = 4294967301 ∧
    atoi "4294967301" = 5 ∧
    (applyCommand (ControlRegister_t.mk 0 0 0 0) CommandType.CMD_MODE "4294967301"
      emptyLog).1 = ControlRegister_t.mk 0 5 0 0 ∧
    printEventLog (applyCommand (ControlRegister_t.mk 0 0 0 0) CommandType.CMD_MODE
      "4294967301" emptyLog).2 = [(0, "MODE set to 5")] ∧
    (applyCommand (ControlRegister_t.mk 0 0 0 0) CommandType.CMD_RESERVED "4294967301"
      emptyLog).1 = ControlRegister_t.mk 5 0 0 0 ∧
    printEventLog (applyCommand (ControlRegister_t.mk 0 0 0 0) CommandType.CMD_RESERVED
      "4294967301" emptyLog).2 = [(0, "RESERVED bits set to 5")] := by
  refine ⟨by decide, by decide, by decide, by decide, by decide, by decide⟩

end ControlRegisterC
